import Mathlib

/- Verification development for the protocol77 single-player card-game engine.
   The TypeScript reducer and its helpers are shallowly embedded:
   * the browser random source (crypto.getRandomValues) is modelled as an
     explicit stream of natural numbers consumed head-first; a missing element
     reads as 0 and every consumer reduces the raw draw mod 2^32 exactly where
     the Uint32Array does;
   * JS numbers carrying card scores are modelled as exact rationals: every
     score the program ever computes is an exact multiple of 1/100, and
     Math.round(x*100)/100 is floor(x*100 + 1/2)/100 on such values, so IEEE
     doubles and these rationals agree on every computed comparison;
   * the unbounded retry loop in takeUnique and the dealer draw loop are given
     explicit fuel and return none exactly where the original code would spin
     forever (the fuel is large enough that none is only reachable on inputs
     where the source itself would not terminate);
   * Date.now() is a per-action parameter, and the mutable Set objects are
     threaded as explicit lists of id strings (membership-equivalent). -/

/- Batteries marks the ℚ field operations `@[irreducible]`, which blocks
   elaboration-time evaluation of the engine on concrete states (the kernel
   itself always unfolds them, so this changes nothing about what is proved);
   restore definitional transparency for them. -/
set_option allowUnsafeReducibility true
attribute [local semireducible] Rat.add Rat.mul Rat.sub Rat.inv

set_option maxRecDepth 8000

namespace Protocol77

/-- The seven suits (`type Suit` in the source). -/
inductive Suit
  | Spade | Heart | Diamond | Club | Crown | Key | Star
deriving DecidableEq, Repr

/-- The four game phases (`type Phase` in the source). -/
inductive Phase
  | LOBBY | PLAYER | DEALER | DONE
deriving DecidableEq, Repr

/-- Printed suit name, used for the template-string card id. -/
def Suit.str : Suit → String
  | .Spade => "Spade"
  | .Heart => "Heart"
  | .Diamond => "Diamond"
  | .Club => "Club"
  | .Crown => "Crown"
  | .Key => "Key"
  | .Star => "Star"

/-- `SUIT_RANK`: fixed integer rank per suit, 1 = highest. -/
def SUIT_RANK : Suit → Nat
  | .Spade => 1
  | .Heart => 2
  | .Diamond => 3
  | .Club => 4
  | .Crown => 5
  | .Key => 6
  | .Star => 7

/-- A card (`type Card`): identity fields exactly as stored by the source. -/
structure Card where
  suit : Suit
  value : Nat
  rank : Nat
  id : String
deriving DecidableEq, Repr

/-- `SUITS` in enumeration order. -/
def SUITS : List Suit := [.Spade, .Heart, .Diamond, .Club, .Crown, .Key, .Star]

/-- `VALUES = [1, ..., 11]`. -/
def VALUES : List Nat := List.range' 1 11

/-- The card object `buildDeck` pushes for a given suit and value. -/
def mkCard (suit : Suit) (v : Nat) : Card :=
  { suit := suit, value := v, rank := SUIT_RANK suit,
    id := suit.str ++ "-" ++ toString v }

/-- `buildDeck()`: the canonical 77-card universe in fixed enumeration order. -/
def buildDeck : List Card :=
  SUITS.flatMap fun suit => VALUES.map fun v => mkCard suit v

/-- `BUST = 21.0`. -/
def BUST : ℚ := 21

/-- `DEALER_STAND = 17.0`. -/
def DEALER_STAND : ℚ := 17

/-- `MAX_BET = 50`. -/
def MAX_BET : Int := 50

/-- `round2(n) = Math.round(n * 100) / 100`; JS Math.round is floor(x + 1/2). -/
def round2 (n : ℚ) : ℚ := ((⌊n * 100 + 1 / 2⌋ : ℤ) : ℚ) / 100

/-- One draw from the modelled random stream (one `crypto.getRandomValues`
    call on a Uint32Array of length 1, before the mod-2^32 masking). -/
def rdraw (g : List Nat) : Nat × List Nat :=
  match g with
  | [] => (0, [])
  | x :: rest => (x, rest)

/-- `cryptoSeed32()`: a fresh 32-bit seed, with 0 mapped to 1. -/
def cryptoSeed32 (g : List Nat) : Nat × List Nat :=
  let v := (rdraw g).1 % 2 ^ 32
  (if v = 0 then 1 else v, (rdraw g).2)

/-- One Fisher-Yates swap `a[i] <-> a[j]` on the list model of the array. -/
def swapAt (l : List Card) (i j : Nat) : List Card :=
  match l[i]?, l[j]? with
  | some a, some b => (l.set i b).set j a
  | _, _ => l

/-- The Fisher-Yates loop of `shuffle`, counting `i` down to 1; the argument
    is the current value of `i` (the source loops `for i = len-1; i > 0; i--`,
    drawing `j = r % (i+1)` fresh each step). -/
def fyLoop (g : List Nat) (a : List Card) : Nat → List Card × List Nat
  | 0 => (a, g)
  | i + 1 =>
    let j := (rdraw g).1 % 2 ^ 32 % (i + 2)
    fyLoop (rdraw g).2 (swapAt a (i + 1) j) i

/-- `shuffle(arr)`. -/
def shuffle (g : List Nat) (arr : List Card) : List Card × List Nat :=
  fyLoop g arr (arr.length - 1)

/-- `shuffle(buildDeck())`: a fresh shuffled canonical deck (named so that
    symbolic reasoning never unfolds the shuffle loop). -/
def freshDeck (g : List Nat) : List Card × List Nat :=
  shuffle g buildDeck

/-- `cardScore(c) = round2(c.value + c.rank / 100)`. -/
def cardScore (c : Card) : ℚ :=
  round2 ((c.value : ℚ) + (c.rank : ℚ) / 100)

/-- `handTotal(hand)`: rounded reduce-sum of card scores. -/
def handTotal (hand : List Card) : ℚ :=
  round2 (hand.foldl (fun sum c => sum + cardScore c) 0)

/-- `clampBet(n)`. -/
def clampBet (n : Int) : Int :=
  if n < 0 then 0 else if MAX_BET < n then MAX_BET else n

/-- Seen-set worker of `hasDuplicatesById`. -/
def hasDupAux (seen : List String) : List Card → Bool
  | [] => false
  | c :: cs => if c.id ∈ seen then true else hasDupAux (c.id :: seen) cs

/-- `hasDuplicatesById(cards)`. -/
def hasDuplicatesById (cards : List Card) : Bool :=
  hasDupAux [] cards

/-- Id strings of a list of cards. -/
def idsOf (l : List Card) : List String := l.map fun c => c.id

/-- Deck regeneration used by `takeUnique` and `normalize`:
    `shuffle(buildDeck().filter((c) => !blocked.has(c.id)))`. -/
def regenDeck (g : List Nat) (blocked : List String) : List Card × List Nat :=
  shuffle g (buildDeck.filter fun c => !decide (c.id ∈ blocked))

/-- The `while (taken.length < n)` loop of `takeUnique`, with explicit fuel
    (first argument after `n`).  State: random stream, current deck `d`,
    `taken`, `takenIds`, `inPlay` (the source mutates the caller's Set; here
    it is threaded), and the `safety` attempt counter.  Mirrors the source:
    increment safety; on safety > 500 regenerate (resetting safety); on an
    empty deck regenerate and `continue`; otherwise shift the front card and
    either skip it (blocked) or take it. -/
def takeLoop (n : Nat) :
    Nat → List Nat → List Card → List Card → List String → List String →
    Nat → Option (List Card × List Card × List Nat)
  | 0, _, _, _, _, _, _ => none
  | fuel + 1, g, d, taken, takenIds, inPlay, safety =>
    if taken.length < n then
      let dgs : List Card × List Nat × Nat :=
        if 500 < safety + 1 then
          (((regenDeck g (inPlay ++ takenIds)).1,
            (regenDeck g (inPlay ++ takenIds)).2, 0))
        else (d, g, safety + 1)
      match dgs.1 with
      | [] =>
        takeLoop n fuel (regenDeck dgs.2.1 (inPlay ++ takenIds)).2
          (regenDeck dgs.2.1 (inPlay ++ takenIds)).1 taken takenIds inPlay
          dgs.2.2
      | c :: rest =>
        if c.id ∈ inPlay then
          takeLoop n fuel dgs.2.1 rest taken takenIds inPlay dgs.2.2
        else if c.id ∈ takenIds then
          takeLoop n fuel dgs.2.1 rest taken takenIds inPlay dgs.2.2
        else
          takeLoop n fuel dgs.2.1 rest (taken ++ [c]) (c.id :: takenIds)
            (c.id :: inPlay) dgs.2.2
    else some (taken, d, g)

/-- `takeUnique(deck, n, inPlay)`: the corrupted-deck pre-check followed by
    the draw loop.  Fuel 1000 strictly dominates the worst-case iteration
    count (at most 503 + n, proved below), so `none` occurs only on inputs
    where the source would loop forever. -/
def takeUnique (g : List Nat) (deck : List Card) (n : Nat)
    (inPlay : List String) : Option (List Card × List Card × List Nat) :=
  let dg := if hasDuplicatesById deck then regenDeck g inPlay else (deck, g)
  takeLoop n 1000 dg.2 dg.1 [] [] inPlay 0

/-- The read-only summary stored with each audit entry (`snapshot`). -/
structure Snapshot where
  seed : Nat
  phase : Phase
  deck : Nat
  bankroll : Int
  bet : Int
  playerTotal : ℚ
  dealerTotal : ℚ
  playerHand : List String
  dealerHand : List String
deriving DecidableEq, Repr

/-- An audit entry (`type LogEntry`); the source field `at` (epoch ms, a
    reserved word in Lean) is named `atMs` here. -/
structure LogEntry where
  atMs : Nat
  kind : String
  note : String
  snapshot : Snapshot
deriving DecidableEq, Repr

/-- The full game state (`type State`). -/
structure State where
  seed : Nat
  phase : Phase
  deck : List Card
  playerHand : List Card
  dealerHand : List Card
  bankroll : Int
  bet : Int
  message : String
  playerInitialBust : Bool
  log : List LogEntry
  logOpen : Bool
deriving DecidableEq, Repr

/-- The action alphabet (`type Action`); `DRAW`'s payload is 1 or 2 in the
    source type, modelled as an arbitrary Nat (the reducer is total in it). -/
inductive Action
  | RESET_RUN
  | SHUFFLE
  | TOGGLE_LOG
  | RESET_BET
  | BET_ADD (inc : Int)
  | BET_PLACE_CTA
  | START
  | DRAW (n : Nat)
  | STAND
  | DEALER_PLAY
  | NEXT_HAND
deriving DecidableEq, Repr

/-- Two-digit zero padding for the fractional part of `toFixed(2)`. -/
def pad2 (n : Nat) : String :=
  if n < 10 then "0" ++ toString n else toString n

/-- JS `x.toFixed(2)` on the nonnegative centi-exact rationals the engine
    produces (every rendered total is an exact multiple of 1/100). -/
def toFixed2 (q : ℚ) : String :=
  let m := (⌊q * 100 + 1 / 2⌋ : ℤ).toNat
  toString (m / 100) ++ "." ++ pad2 (m % 100)

/-- `snapshotOf(state)`. -/
def snapshotOf (s : State) : Snapshot :=
  { seed := s.seed, phase := s.phase, deck := s.deck.length,
    bankroll := s.bankroll, bet := s.bet,
    playerTotal := handTotal s.playerHand,
    dealerTotal := handTotal s.dealerHand,
    playerHand := idsOf s.playerHand, dealerHand := idsOf s.dealerHand }

/-- `pushLog(state, kind, note)`: append an entry, then cap at the newest 200
    (`next.slice(next.length - 200)`). `now` models `Date.now()`. -/
def pushLog (now : Nat) (s : State) (kind note : String) : State :=
  let entry : LogEntry :=
    { atMs := now, kind := kind, note := note, snapshot := snapshotOf s }
  let next := s.log ++ [entry]
  let capped := if 200 < next.length then next.drop (next.length - 200) else next
  { s with log := capped }

/-- `initialState`: fresh seed, fresh shuffled canonical deck, bankroll 10000,
    phase LOBBY (the source evaluates it once at module load; the random
    stream is explicit here). -/
def initState (g : List Nat) : State × List Nat :=
  let seed := (cryptoSeed32 g).1
  let g1 := (cryptoSeed32 g).2
  let deck := (freshDeck g1).1
  let g2 := (freshDeck g1).2
  ({ seed := seed, phase := .LOBBY, deck := deck, playerHand := [],
     dealerHand := [], bankroll := 10000, bet := 0,
     message := "Place a bet to join the table.",
     playerInitialBust := false, log := [], logOpen := false }, g2)

/-- Seen-set worker of `dedupeHand` inside `normalize` (keep first
    occurrence of each id). -/
def dedupAux (seen : List String) : List Card → List Card
  | [] => []
  | c :: cs =>
    if c.id ∈ seen then dedupAux seen cs
    else c :: dedupAux (c.id :: seen) cs

/-- `dedupeHand(hand)`. -/
def dedupeHand (hand : List Card) : List Card := dedupAux [] hand

/-- `normalize(state)`: dedupe each hand; keep the deck iff it has no
    duplicate ids and no overlap with the deduped hands, else rebuild it from
    the canonical set minus in-play ids.  The source's reference-equality
    short-circuit (`sameP && sameD && sameDeck`) compares lengths and
    pointwise ids, i.e. equality of the id lists, and `sameDeck` is exactly
    `deckOk` (a rebuilt deck is a fresh array). -/
def normalize (g : List Nat) (s : State) : State × List Nat :=
  let p := dedupeHand s.playerHand
  let d := dedupeHand s.dealerHand
  let inPlay := idsOf p ++ idsOf d
  let deckOk :=
    !hasDuplicatesById s.deck && s.deck.all fun c => !decide (c.id ∈ inPlay)
  if deckOk then
    if idsOf p = idsOf s.playerHand ∧ idsOf d = idsOf s.dealerHand then (s, g)
    else ({ s with playerHand := p, dealerHand := d }, g)
  else
    ({ s with
       playerHand := p
       dealerHand := d
       deck := (regenDeck g inPlay).1 }, (regenDeck g inPlay).2)

/-- Fallback card for the (never taken, see `takeUnique_length`) out-of-range
    reads `taken[0]..taken[3]` after a 4-card deal. -/
def fallbackCard : Card := { suit := .Spade, value := 0, rank := 0, id := "" }

/-- The dealer draw loop of DEALER_PLAY with explicit fuel: draw one unique
    card while the total is below DEALER_STAND, recomputing the in-play set
    from the (fixed) player hand and current dealer hand each iteration;
    increment `draws` and break after it exceeds 50.  `takeUnique` returns
    exactly one card on success, so `dh ++ taken` is the source's
    `[...dh, taken[0]]`. -/
def dealerLoop (ph : List Card) :
    Nat → List Nat → List Card → List Card → Nat →
    Option (List Card × List Card × List Nat)
  | 0, _, _, _, _ => none
  | fuel + 1, g, deck, dh, draws =>
    if handTotal dh < DEALER_STAND then
      let inPlay := idsOf ph ++ idsOf dh
      match takeUnique g deck 1 inPlay with
      | none => none
      | some (taken, rest, g') =>
        let dh' := dh ++ taken
        let draws' := draws + 1
        if 50 < draws' then some (dh', rest, g')
        else dealerLoop ph fuel g' rest dh' draws'
    else some (dh, deck, g)

/-- The body of the reducer's DEALER_PLAY case, applied to the normalized
    state (whose phase is DEALER): top the dealer hand up to 2 cards, run the
    draw loop, then resolve in the source's priority order. -/
def dealerPlay (now : Nat) (g : List Nat) (s : State) :
    Option (State × List Nat) :=
  let inPlayBase := idsOf s.playerHand ++ idsOf s.dealerHand
  let step1 : Option (List Card × List Card × List Nat) :=
    if s.dealerHand.length < 2 then
      match takeUnique g s.deck (2 - s.dealerHand.length) inPlayBase with
      | none => none
      | some (taken, rest, g') => some (s.dealerHand ++ taken, rest, g')
    else some (s.dealerHand, s.deck, g)
  match step1 with
  | none => none
  | some (dh0, deck0, g0) =>
    match dealerLoop s.playerHand 60 g0 deck0 dh0 0 with
    | none => none
    | some (dh, deck, g1) =>
      let dt := handTotal dh
      let pt := handTotal s.playerHand
      let dealerBust := BUST < dt
      if s.playerInitialBust then
        if dealerBust then
          some (pushLog now
            { s with
              phase := .DONE
              deck := deck
              dealerHand := dh
              message := ("Dealer busts (" ++ toFixed2 dt ++ "). You win. (+" ++ toString s.bet ++ " sats)")
              bankroll := s.bankroll + s.bet }
            "DEALT_BUST_WIN"
            ("Dealt-bust exception win (dealer bust " ++ toFixed2 dt ++
              "). +" ++ toString s.bet ++ "."), g1)
        else
          some (pushLog now
            { s with
              phase := .DONE
              deck := deck
              dealerHand := dh
              message := ("You were dealt bust (" ++ toFixed2 pt ++ "). Dealer stands (" ++ toFixed2 dt ++ "). You lose. (-" ++ toString s.bet ++ " sats)")
              bankroll := s.bankroll - s.bet }
            "DEALT_BUST_LOSS"
            ("Dealt-bust loss (dealer " ++ toFixed2 dt ++ "). -" ++
              toString s.bet ++ "."), g1)
      else if dealerBust then
        some (pushLog now
          { s with
            phase := .DONE
            deck := deck
            dealerHand := dh
            message := ("Dealer busts (" ++ toFixed2 dt ++ "). You win. (+" ++ toString s.bet ++ " sats)")
            bankroll := s.bankroll + s.bet }
          "DEALER_BUST_WIN"
          ("Dealer bust " ++ toFixed2 dt ++ ". +" ++ toString s.bet ++ "."),
          g1)
      else if dt < pt then
        some (pushLog now
          { s with
            phase := .DONE
            deck := deck
            dealerHand := dh
            message := ("You win. (P " ++ toFixed2 pt ++ " vs D " ++ toFixed2 dt ++ ") (+" ++ toString s.bet ++ " sats)")
            bankroll := s.bankroll + s.bet }
          "WIN"
          ("Win P " ++ toFixed2 pt ++ " vs D " ++ toFixed2 dt ++ ". +" ++
            toString s.bet ++ "."), g1)
      else if pt < dt then
        some (pushLog now
          { s with
            phase := .DONE
            deck := deck
            dealerHand := dh
            message := ("You lose. (P " ++ toFixed2 pt ++ " vs D " ++ toFixed2 dt ++ ") (-" ++ toString s.bet ++ " sats)")
            bankroll := s.bankroll - s.bet }
          "LOSS"
          ("Loss P " ++ toFixed2 pt ++ " vs D " ++ toFixed2 dt ++ ". -" ++
            toString s.bet ++ "."), g1)
      else
        some (pushLog now
          { s with
            phase := .DONE
            deck := deck
            dealerHand := dh
            message := ("Push. (P " ++ toFixed2 pt ++ " vs D " ++ toFixed2 dt ++ ") (+0 sats)") }
          "PUSH"
          ("Push P " ++ toFixed2 pt ++ " vs D " ++ toFixed2 dt ++ "."), g1)

/-- `reducer(state, action)`: normalize first, then dispatch.  Returns `none`
    exactly when a `takeUnique` call would not terminate in the source. -/
def reducer (now : Nat) (g : List Nat) (s0 : State) (a : Action) :
    Option (State × List Nat) :=
  let s := (normalize g s0).1
  let g := (normalize g s0).2
  match a with
  | .RESET_RUN =>
    let seed := (cryptoSeed32 g).1
    let g1 := (cryptoSeed32 g).2
    let deck := (freshDeck g1).1
    let g2 := (freshDeck g1).2
    let reset : State :=
      { seed := seed, phase := .LOBBY, deck := deck, playerHand := [],
        dealerHand := [], bankroll := 10000, bet := 0,
        message := "Place a bet to join the table.",
        playerInitialBust := false, log := [], logOpen := false }
    some (pushLog now reset "RESET_RUN" "Reset run.", g2)
  | .TOGGLE_LOG => some ({ s with logOpen := !s.logOpen }, g)
  | .SHUFFLE =>
    let inPlay := idsOf s.playerHand ++ idsOf s.dealerHand
    let seed := (cryptoSeed32 g).1
    let g1 := (cryptoSeed32 g).2
    let deck := (regenDeck g1 inPlay).1
    let g2 := (regenDeck g1 inPlay).2
    let msg :=
      if s.phase = .PLAYER then
        if s.playerInitialBust then "Dealt bust. Only STAND is allowed."
        else "Your turn. Draw 2, Draw 1, or Stand."
      else if s.phase = .LOBBY then "Place a bet to join the table."
      else s.message
    some (pushLog now { s with seed := seed, deck := deck, message := msg }
      "SHUFFLE" "Shuffled deck (excluding in-play).", g2)
  | .RESET_BET =>
    if s.phase ≠ .LOBBY then some (s, g)
    else some (pushLog now
      { s with bet := 0, message := "Place a bet to join the table." }
      "RESET_BET" "Reset bet to 0.", g)
  | .BET_ADD inc =>
    if s.phase ≠ .LOBBY then some (s, g)
    else
      let nextBet := clampBet (s.bet + inc)
      some (pushLog now
        { s with
          bet := nextBet
          message := (if 0 < nextBet then "Bet set. Press START to deal." else "Place a bet to join the table.") }
        "BET_ADD"
        ("Bet +" ++ toString inc ++ " -> " ++ toString nextBet ++ "."), g)
  | .BET_PLACE_CTA =>
    if s.phase ≠ .LOBBY then some (s, g)
    else
      let nextBet := if 0 < s.bet then s.bet else 10
      some (pushLog now
        { s with bet := nextBet, message := "Bet set. Press START to deal." }
        "BET_PLACE_CTA"
        ("CTA placed bet -> " ++ toString nextBet ++ "."), g)
  | .START =>
    if s.phase ≠ .LOBBY then some (s, g)
    else if s.bet ≤ 0 then
      some (pushLog now { s with message := "You must place a bet first." }
        "START_BLOCKED" "Start blocked: no bet.", g)
    else if s.bankroll < s.bet then
      some (pushLog now { s with message := "Bet exceeds bankroll." }
        "START_BLOCKED" "Start blocked: bet > bankroll.", g)
    else
      match takeUnique g s.deck 4 [] with
      | none => none
      | some (taken, rest, g') =>
        let p := [taken.getD 0 fallbackCard, taken.getD 2 fallbackCard]
        let d := [taken.getD 1 fallbackCard, taken.getD 3 fallbackCard]
        let pTot := handTotal p
        let initBust := BUST < pTot
        some (pushLog now
          { s with
            phase := .PLAYER
            deck := rest
            playerHand := p
            dealerHand := d
            playerInitialBust := initBust
            message := (if initBust then "Dealt bust. Only STAND is allowed." else "Your turn. Draw 2, Draw 1, or Stand.") }
          "START"
          ("Dealt. Player " ++ toFixed2 pTot ++
            (if initBust then " (dealt bust)" else "") ++ "."), g')
  | .DRAW n =>
    if s.phase ≠ .PLAYER then some (s, g)
    else if s.playerInitialBust then
      some (pushLog now
        { s with message := "Dealt bust. Only STAND is allowed." }
        "DRAW_BLOCKED" "Draw blocked: dealt bust.", g)
    else if BUST < handTotal s.playerHand then some (s, g)
    else
      let inPlay := idsOf s.playerHand ++ idsOf s.dealerHand
      match takeUnique g s.deck n inPlay with
      | none => none
      | some (taken, rest, g') =>
        let nextHand := s.playerHand ++ taken
        let pt := handTotal nextHand
        if BUST < pt then
          some (pushLog now
            { s with
              phase := .DONE
              deck := rest
              playerHand := nextHand
              message := ("You bust (" ++ toFixed2 pt ++ "). You lose. (-" ++ toString s.bet ++ " sats)")
              bankroll := s.bankroll - s.bet }
            "BUST_BY_HIT"
            ("Player bust by hit at " ++ toFixed2 pt ++ " (-" ++
              toString s.bet ++ ")."), g')
        else
          some (pushLog now
            { s with
              deck := rest
              playerHand := nextHand
              message := "Your turn. Draw 2, Draw 1, or Stand." }
            "DRAW"
            ("Player drew " ++ toString n ++ ". Total now " ++
              toFixed2 pt ++ "."), g')
  | .STAND =>
    if s.phase ≠ .PLAYER then some (s, g)
    else some (pushLog now
      { s with phase := .DEALER, message := "Dealer plays..." }
      "STAND" "Player stands. Dealer phase.", g)
  | .DEALER_PLAY =>
    if s.phase ≠ .DEALER then some (s, g)
    else dealerPlay now g s
  | .NEXT_HAND =>
    if s.phase ≠ .DONE then some (s, g)
    else some (pushLog now
      { s with
        phase := .LOBBY
        bet := 0
        playerHand := []
        dealerHand := []
        playerInitialBust := false
        message := "Place a bet to join the table." }
      "NEXT_HAND" "Next hand -> lobby.", g)

/-- States reachable from the module-load initial state by dispatched
    actions, over every random stream and timestamp. -/
inductive Reachable : State → Prop
  | init (g : List Nat) : Reachable (initState g).1
  | step {s : State} (a : Action) (now : Nat) (g : List Nat) {s' : State}
      {g' : List Nat} : Reachable s → reducer now g s a = some (s', g') →
      Reachable s'

/-- The view layer auto-dispatches DEALER_PLAY whenever the phase enters
    DEALER (the `useEffect` in `Home`); this is STAND composed with that
    reactive re-dispatch. -/
def standAuto (now : Nat) (g : List Nat) (s : State) :
    Option (State × List Nat) :=
  match reducer now g s .STAND with
  | none => none
  | some (s1, g1) => reducer now g1 s1 .DEALER_PLAY

/-- The canonical 77 id strings, in `buildDeck` order. -/
def canonIds : List String := idsOf buildDeck

/-- All card ids present in a state: deck ∪ playerHand ∪ dealerHand
    (as an ordered list; the invariant claims speak of its multiset). -/
def idsAll (s : State) : List String :=
  idsOf s.deck ++ idsOf s.playerHand ++ idsOf s.dealerHand

/-- A hand's total in centi-points (hundredths): `100*value + rank` summed.
    Every score the engine computes is exact at this granularity, so
    `handTotal h = centi h / 100` (proved below). -/
def centi (h : List Card) : ℕ :=
  (h.map fun c => 100 * c.value + c.rank).sum

/-- How many canonical ids a blocked-id list covers: `|inPlay ∩ canonical|`. -/
def interCount (inPlay : List String) : ℕ :=
  (canonIds.filter fun i => decide (i ∈ inPlay)).length

/-- How many canonical ids are NOT blocked: `77 - interCount` (proved). -/
def availCount (inPlay : List String) : ℕ :=
  (canonIds.filter fun i => !decide (i ∈ inPlay)).length

/-- What a successful `takeUnique(deck, n, inPlay)` must deliver: exactly `n`
    cards, pairwise distinct by id, none of them blocked by `inPlay`
    (and `False` on divergence). -/
def tuSpec (n : Nat) (inPlay : List String) :
    Option (List Card × List Card × List Nat) → Prop
  | none => False
  | some (taken, _, _) =>
    taken.length = n ∧ (idsOf taken).Nodup ∧ ∀ c ∈ taken, c.id ∉ inPlay

/-- The inductive invariant of reachable states: no id occurs twice across
    deck ∪ playerHand ∪ dealerHand, every card is canonical, the bet is in
    [0, 50], the bankroll is nonnegative and covers the bet while a hand is
    live, and LOBBY states hold no cards. -/
structure Inv (s : State) : Prop where
  nodup : (idsAll s).Nodup
  canon : ∀ c ∈ s.deck ++ s.playerHand ++ s.dealerHand, c ∈ buildDeck
  betLo : 0 ≤ s.bet
  betHi : s.bet ≤ 50
  bank : 0 ≤ s.bankroll
  betBank : s.phase = .PLAYER ∨ s.phase = .DEALER → s.bet ≤ s.bankroll
  lobbyHands : s.phase = .LOBBY → s.playerHand = [] ∧ s.dealerHand = []

/-- All fields except `message` and `log` agree (used to state that a blocked
    action changes nothing but the user-facing message and the audit trail). -/
def sameCore (a b : State) : Prop :=
  a.seed = b.seed ∧ a.phase = b.phase ∧ a.deck = b.deck ∧
  a.playerHand = b.playerHand ∧ a.dealerHand = b.dealerHand ∧
  a.bankroll = b.bankroll ∧ a.bet = b.bet ∧
  a.playerInitialBust = b.playerInitialBust ∧ a.logOpen = b.logOpen

/-- `new`'s log is `old`'s log plus exactly one appended entry of the given
    kind (drop-oldest at the 200 cap). -/
def appendsEntry (old new : State) (kind : String) : Prop :=
  new.log.length = min (old.log.length + 1) 200 ∧
  ∃ e, new.log.getLast? = some e ∧ e.kind = kind

/-- A concrete random stream for the witness run: seed draw, then the
    Fisher-Yates draws for i = 76 down to 1; identity swaps except Spade-9
    into slot 1 and Spade-8 into slot 3, so the dealer is dealt 17.02 and
    stands without drawing. -/
def oracleA : List Nat :=
  1 :: (List.range' 1 76).reverse.map fun i =>
    if i = 8 then 1 else if i = 7 then 3 else i

/-- Witness run, step 0: the initial state under `oracleA`. -/
def rs0 : State := (initState oracleA).1

/-- Witness run, step 1: BET_ADD 10 (bet 10). -/
def rs1 : State := ((reducer 0 [] rs0 (.BET_ADD 10)).getD (rs0, [])).1

/-- Witness run, step 2: START (player Spade-1/Spade-3, dealer
    Spade-9/Spade-8). -/
def rs2 : State := ((reducer 0 [] rs1 .START).getD (rs0, [])).1

/-- Witness run, step 3: STAND (phase DEALER). -/
def rs3 : State := ((reducer 0 [] rs2 .STAND).getD (rs0, [])).1

/-- Witness run, step 4: DEALER_PLAY (dealer stands at 17.02, player loses). -/
def rs4 : State := ((reducer 0 [] rs3 .DEALER_PLAY).getD (rs0, [])).1

/-- Witness run, step 5: NEXT_HAND (hands cleared; the four dealt cards are
    not returned to the deck). -/
def rs5 : State := ((reducer 0 [] rs4 .NEXT_HAND).getD (rs0, [])).1

/-- A hand-built mid-game PLAYER state (valid: disjoint hands, empty deck);
    dealer already holds 19.06. -/
def stP : State :=
  { seed := 7, phase := .PLAYER, deck := [],
    playerHand := [mkCard .Spade 5],
    dealerHand := [mkCard .Heart 10, mkCard .Club 9],
    bankroll := 100, bet := 10, message := "x",
    playerInitialBust := false, log := [], logOpen := false }

/-- `stP` after STAND. -/
def stPstand : State := ((reducer 0 [] stP .STAND).getD (stP, [])).1

/-- `stP` after STAND plus auto-dispatched DEALER_PLAY. -/
def stPauto : State := ((standAuto 0 [] stP).getD (stP, [])).1

/-- A hand-built DEALER state with a dealt-bust player (22.03) and a dealer
    already standing at 19.06. -/
def stB : State :=
  { seed := 7, phase := .DEALER, deck := [],
    playerHand := [mkCard .Spade 11, mkCard .Heart 11],
    dealerHand := [mkCard .Heart 10, mkCard .Club 9],
    bankroll := 100, bet := 10, message := "x",
    playerInitialBust := true, log := [], logOpen := false }

/-- `stB` after DEALER_PLAY. -/
def stBout : State := ((reducer 0 [] stB .DEALER_PLAY).getD (stB, [])).1

/-- A minimal empty valid state (for normalize-identity witnesses). -/
def stEmpty : State :=
  { seed := 1, phase := .LOBBY, deck := [], playerHand := [], dealerHand := [],
    bankroll := 10000, bet := 0, message := "x",
    playerInitialBust := false, log := [], logOpen := false }

/-- `rs1` after a second BET_ADD(50): the bet clamps at 50 (Scenario C). -/
def rcBet50 : State := ((reducer 0 [] rs1 (.BET_ADD 50)).getD (rs0, [])).1

/-- `rs0` after START with no bet placed (START_BLOCKED). -/
def rsStartBlocked : State := ((reducer 0 [] rs0 .START).getD (rs0, [])).1

/-- A valid LOBBY state whose bet exceeds its bankroll (START must reject). -/
def stPoor : State :=
  { seed := 3, phase := .LOBBY, deck := [], playerHand := [], dealerHand := [],
    bankroll := 10, bet := 20, message := "x",
    playerInitialBust := false, log := [], logOpen := false }

/-- `stPoor` after START (blocked: bet exceeds bankroll). -/
def stPoorS : State := ((reducer 0 [] stPoor .START).getD (stPoor, [])).1

/-! ### Canonical deck and score arithmetic -/

theorem canonIds_nodup : canonIds.Nodup := by decide

theorem canonIds_length : canonIds.length = 77 := by decide

theorem buildDeck_bounds : ∀ c ∈ buildDeck, 1 ≤ c.value ∧ 1 ≤ c.rank := by
  decide

theorem buildDeck_ids_nodup : (idsOf buildDeck).Nodup := canonIds_nodup

theorem mem_canonIds {c : Card} (h : c ∈ buildDeck) : c.id ∈ canonIds :=
  List.mem_map_of_mem _ h

theorem round2_centi (k : ℤ) : round2 ((k : ℚ) / 100) = (k : ℚ) / 100 := by
  unfold round2
  have h1 : (k : ℚ) / 100 * 100 + 1 / 2 = (k : ℚ) + 1 / 2 := by ring
  rw [h1]
  have h2 : (⌊(k : ℚ) + 1 / 2⌋ : ℤ) = k := by
    rw [add_comm, Int.floor_add_int]
    have : (⌊(1 / 2 : ℚ)⌋ : ℤ) = 0 := by
      apply Int.floor_eq_iff.mpr
      constructor <;> norm_num
    omega
  rw [h2]

theorem cardScore_centi (c : Card) :
    cardScore c = ((100 * c.value + c.rank : ℕ) : ℚ) / 100 := by
  unfold cardScore
  have h1 : (c.value : ℚ) + (c.rank : ℚ) / 100 =
      (((100 * c.value + c.rank : ℕ) : ℤ) : ℚ) / 100 := by push_cast; ring
  rw [h1, round2_centi]
  push_cast
  ring

theorem foldl_add_sum (f : Card → ℚ) (h : List Card) :
    ∀ a : ℚ, h.foldl (fun sum c => sum + f c) a = a + (h.map f).sum := by
  induction h with
  | nil => intro a; simp
  | cons c t ih => intro a; simp [ih]; ring

theorem sum_map_cardScore (h : List Card) :
    (h.map cardScore).sum = (centi h : ℚ) / 100 := by
  induction h with
  | nil => simp [centi]
  | cons c t ih =>
    simp only [List.map_cons, List.sum_cons, ih, cardScore_centi c, centi]
    push_cast
    ring

theorem handTotal_centi (h : List Card) : handTotal h = (centi h : ℚ) / 100 := by
  unfold handTotal
  rw [foldl_add_sum, zero_add, sum_map_cardScore]
  have := round2_centi ((centi h : ℕ) : ℤ)
  push_cast at this ⊢
  exact this

theorem centi_append (h t : List Card) : centi (h ++ t) = centi h + centi t := by
  simp [centi]

theorem handTotal_lt_iff (h : List Card) (m : ℕ) :
    handTotal h < (m : ℚ) ↔ centi h < 100 * m := by
  rw [handTotal_centi, div_lt_iff₀ (by norm_num : (0 : ℚ) < 100)]
  rw [show (m : ℚ) * 100 = ((100 * m : ℕ) : ℚ) by push_cast; ring]
  exact Nat.cast_lt

theorem lt_handTotal_iff (h : List Card) (m : ℕ) :
    (m : ℚ) < handTotal h ↔ 100 * m < centi h := by
  rw [handTotal_centi, lt_div_iff₀ (by norm_num : (0 : ℚ) < 100)]
  rw [show (m : ℚ) * 100 = ((100 * m : ℕ) : ℚ) by push_cast; ring]
  exact Nat.cast_lt

theorem le_handTotal_iff (h : List Card) (m : ℕ) :
    (m : ℚ) ≤ handTotal h ↔ 100 * m ≤ centi h := by
  rw [handTotal_centi, le_div_iff₀ (by norm_num : (0 : ℚ) < 100)]
  rw [show (m : ℚ) * 100 = ((100 * m : ℕ) : ℚ) by push_cast; ring]
  exact Nat.cast_le

theorem bust_lt_handTotal_iff (h : List Card) :
    BUST < handTotal h ↔ 2100 < centi h := by
  have := lt_handTotal_iff h 21
  simpa [BUST] using this

theorem handTotal_lt_stand_iff (h : List Card) :
    handTotal h < DEALER_STAND ↔ centi h < 1700 := by
  have := handTotal_lt_iff h 17
  simpa [DEALER_STAND] using this

theorem centi_card_ge (c : Card) (h : c ∈ buildDeck) :
    101 ≤ 100 * c.value + c.rank := by
  have := buildDeck_bounds c h
  omega

/-! ### List helpers: duplicate detection, dedupe, shuffle permutation -/

theorem hasDupAux_eq_false_iff (l : List Card) :
    ∀ seen, (hasDupAux seen l = false ↔
      ((idsOf l).Nodup ∧ ∀ i ∈ idsOf l, i ∉ seen)) := by
  induction l with
  | nil => intro seen; simp [hasDupAux, idsOf]
  | cons c t ih =>
    intro seen
    simp only [hasDupAux, idsOf, List.map_cons]
    by_cases hc : c.id ∈ seen
    · rw [if_pos hc]
      constructor
      · intro h; exact absurd h (by simp)
      · rintro ⟨-, h2⟩; exact absurd hc (h2 c.id (by simp))
    · rw [if_neg hc, ih (c.id :: seen)]
      unfold idsOf
      constructor
      · rintro ⟨hn, hmem⟩
        have hcid : c.id ∉ t.map fun c => c.id := fun hin =>
          absurd (List.mem_cons_self c.id seen) (hmem c.id hin)
        refine ⟨List.nodup_cons.mpr ⟨hcid, hn⟩, ?_⟩
        intro i hi
        rcases List.mem_cons.mp hi with h | h
        · exact h ▸ hc
        · exact fun hs => hmem i h (List.mem_cons_of_mem _ hs)
      · rintro ⟨hn, hall⟩
        rw [List.nodup_cons] at hn
        refine ⟨hn.2, ?_⟩
        intro i hi hmem
        rcases List.mem_cons.mp hmem with h | h
        · exact hn.1 (h ▸ hi)
        · exact hall i (List.mem_cons_of_mem _ hi) h

theorem hasDuplicatesById_eq_false (l : List Card) :
    hasDuplicatesById l = false ↔ (idsOf l).Nodup := by
  unfold hasDuplicatesById
  rw [hasDupAux_eq_false_iff]
  simp

theorem dedupAux_eq_self (l : List Card) :
    ∀ seen, (idsOf l).Nodup → (∀ i ∈ idsOf l, i ∉ seen) →
      dedupAux seen l = l := by
  induction l with
  | nil => intro seen _ _; rfl
  | cons c t ih =>
    intro seen hn hmem
    simp only [idsOf, List.map_cons, List.nodup_cons] at hn
    have hc : c.id ∉ seen := hmem c.id (by simp [idsOf])
    simp only [dedupAux, if_neg hc]
    congr 1
    refine ih (c.id :: seen) hn.2 ?_
    intro i hi hmem2
    rcases List.mem_cons.mp hmem2 with h | h
    · exact hn.1 (h ▸ hi)
    · exact hmem i (by simp [idsOf] at hi ⊢; exact Or.inr hi) h

theorem dedupeHand_eq_self {l : List Card} (h : (idsOf l).Nodup) :
    dedupeHand l = l :=
  dedupAux_eq_self l [] h (by simp)

theorem dedupAux_nodup (l : List Card) :
    ∀ seen, (idsOf (dedupAux seen l)).Nodup ∧
      ∀ i ∈ idsOf (dedupAux seen l), i ∉ seen := by
  induction l with
  | nil => intro seen; simp [dedupAux, idsOf]
  | cons c t ih =>
    intro seen
    by_cases hc : c.id ∈ seen
    · simpa [dedupAux, hc] using ih seen
    · have := ih (c.id :: seen)
      simp only [dedupAux, if_neg hc, idsOf, List.map_cons, List.nodup_cons]
      refine ⟨⟨?_, this.1⟩, ?_⟩
      · intro hmem
        exact absurd (List.mem_cons_self c.id seen) (this.2 c.id hmem)
      · intro i hi
        rcases List.mem_cons.mp hi with h | h
        · exact h ▸ hc
        · intro hs
          exact this.2 i h (List.mem_cons_of_mem _ hs)

theorem dedupeHand_nodup (l : List Card) : (idsOf (dedupeHand l)).Nodup :=
  (dedupAux_nodup l []).1

theorem count_set_getD (l : List Card) :
    ∀ (i : Nat) (a x : Card), i < l.length →
    (l.set i a).count x + (if l.getD i fallbackCard = x then 1 else 0) =
      l.count x + (if a = x then 1 else 0) := by
  induction l with
  | nil => intro i a x h; simp at h
  | cons b t ih =>
    intro i a x h
    cases i with
    | zero =>
      simp only [List.set, List.getD_cons_zero, List.count_cons, beq_iff_eq]
      split_ifs <;> omega
    | succ i =>
      simp only [List.set, List.getD_cons_succ, List.count_cons, beq_iff_eq]
      have := ih i a x (Nat.lt_of_succ_lt_succ h)
      split_ifs at this ⊢ <;> omega

theorem swapAt_perm (l : List Card) (i j : Nat) :
    List.Perm (swapAt l i j) l := by
  unfold swapAt
  split
  case _ a b ha hb =>
    have hi : i < l.length := by
      rcases List.getElem?_eq_some_iff.mp ha with ⟨h, -⟩; exact h
    have hj : j < l.length := by
      rcases List.getElem?_eq_some_iff.mp hb with ⟨h, -⟩; exact h
    have hga : l.getD i fallbackCard = a := by
      rw [List.getD_eq_getElem?_getD, ha]; rfl
    have hgb : l.getD j fallbackCard = b := by
      rw [List.getD_eq_getElem?_getD, hb]; rfl
    rw [List.perm_iff_count]
    intro x
    by_cases hij : i = j
    · subst hij
      have hab : a = b := by rw [ha] at hb; exact (Option.some.inj hb)
      subst hab
      rw [List.set_set]
      have e1 := count_set_getD l i a x hi
      rw [hga] at e1
      split_ifs at e1 <;> omega
    · have e1 := count_set_getD l i b x hi
      rw [hga] at e1
      have hj2 : j < (l.set i b).length := by rw [List.length_set]; exact hj
      have e2 := count_set_getD (l.set i b) j a x hj2
      have hgb2 : (l.set i b).getD j fallbackCard = b := by
        rw [List.getD_eq_getElem?_getD, List.getElem?_set_ne (Ne.symm ?_), hb]
        · rfl
        · exact fun h => hij h.symm
      rw [hgb2] at e2
      split_ifs at e1 e2 <;> omega
  case _ => exact List.Perm.refl l

theorem fyLoop_perm : ∀ (k : Nat) (g : List Nat) (a : List Card),
    List.Perm (fyLoop g a k).1 a := by
  intro k
  induction k with
  | zero => intro g a; exact List.Perm.refl a
  | succ k ih =>
    intro g a
    exact (ih _ _).trans (swapAt_perm a (k + 1) _)

theorem shuffle_perm (g : List Nat) (l : List Card) :
    List.Perm (shuffle g l).1 l :=
  fyLoop_perm _ g l

theorem shuffle_ids_perm (g : List Nat) (l : List Card) :
    List.Perm (idsOf (shuffle g l).1) (idsOf l) :=
  (shuffle_perm g l).map _

theorem shuffle_nodup_ids (g : List Nat) {l : List Card}
    (h : (idsOf l).Nodup) : (idsOf (shuffle g l).1).Nodup :=
  ((shuffle_ids_perm g l).symm.nodup h)

theorem shuffle_mem {g : List Nat} {l : List Card} {c : Card} :
    c ∈ (shuffle g l).1 ↔ c ∈ l :=
  (shuffle_perm g l).mem_iff

theorem freshDeck_nodup (g : List Nat) : (idsOf (freshDeck g).1).Nodup :=
  shuffle_nodup_ids g canonIds_nodup

theorem freshDeck_mem {g : List Nat} {c : Card} :
    c ∈ (freshDeck g).1 ↔ c ∈ buildDeck :=
  shuffle_mem

theorem freshDeck_ids_perm (g : List Nat) :
    List.Perm (idsOf (freshDeck g).1) canonIds :=
  shuffle_ids_perm g buildDeck

theorem idsOf_nil : idsOf [] = ([] : List String) := rfl

/-! ### Availability counting for takeUnique termination -/

theorem filter_split (l : List String) (p : String → Bool) :
    (l.filter p).length + (l.filter fun i => !p i).length = l.length := by
  induction l with
  | nil => simp
  | cons a t ih =>
    by_cases h : p a <;> simp [List.filter_cons, h] <;> omega

theorem regen_filter_length (blocked : List String) :
    (buildDeck.filter fun c => !decide (c.id ∈ blocked)).length =
      availCount blocked := by
  unfold availCount canonIds idsOf
  rw [List.filter_map, List.length_map]
  rfl

theorem availCount_le (ip : List String) : availCount ip ≤ 77 := by
  have := List.length_filter_le (fun i => !decide (i ∈ ip)) canonIds
  rw [canonIds_length] at this
  exact this

theorem availCount_add_interCount (ip : List String) :
    interCount ip + availCount ip = 77 := by
  unfold availCount interCount
  rw [filter_split canonIds fun i => decide (i ∈ ip)]
  exact canonIds_length

theorem filter_not_mem_cons_ge (x : String) (ip : List String) :
    ∀ l : List String, l.Nodup →
      (l.filter fun i => !decide (i ∈ ip)).length ≤
        (l.filter fun i => !decide (i ∈ x :: ip)).length + 1 := by
  intro l
  induction l with
  | nil => simp
  | cons a t ih =>
    intro hnd
    rw [List.nodup_cons] at hnd
    by_cases hip : a ∈ ip
    · have hx : a ∈ x :: ip := List.mem_cons_of_mem _ hip
      simpa [List.filter_cons, hip, hx] using ih hnd.2
    · by_cases hax : a = x
      · subst hax
        have hx : a ∈ a :: ip := List.mem_cons_self a ip
        simp only [List.filter_cons, hip, hx, decide_True, decide_False,
          Bool.not_true, Bool.not_false, if_true, if_false]
        have heq : (t.filter fun i => !decide (i ∈ ip)).length =
            (t.filter fun i => !decide (i ∈ a :: ip)).length := by
          congr 1
          apply List.filter_congr
          intro i hi
          have : i ≠ a := fun h => hnd.1 (h ▸ hi)
          simp [List.mem_cons, this]
        simp [heq]
      · have hx : a ∉ x :: ip := by
          simp [List.mem_cons, hax, hip]
        simp only [List.filter_cons, hip, hx, decide_True, decide_False,
          Bool.not_true, Bool.not_false, if_true, if_false]
        have := ih hnd.2
        simp only [List.length_cons]
        omega

theorem availCount_cons (x : String) (ip : List String) :
    availCount ip ≤ availCount (x :: ip) + 1 :=
  filter_not_mem_cons_ge x ip canonIds canonIds_nodup

theorem filter_blocked_append_eq (tIds ip : List String)
    (hsub : ∀ i ∈ tIds, i ∈ ip) :
    (buildDeck.filter fun c => !decide (c.id ∈ ip ++ tIds)) =
      buildDeck.filter fun c => !decide (c.id ∈ ip) := by
  apply List.filter_congr
  intro c _
  have : (c.id ∈ ip ++ tIds) ↔ c.id ∈ ip := by
    rw [List.mem_append]
    exact ⟨fun h => h.elim id (hsub _), Or.inl⟩
  simp [this]

/-! ### Regenerated-deck facts -/

theorem regen_nodup (g : List Nat) (bl : List String) :
    (idsOf (regenDeck g bl).1).Nodup := by
  apply shuffle_nodup_ids
  exact List.Nodup.sublist ((List.filter_sublist _).map _) canonIds_nodup

theorem regen_mem {g : List Nat} {bl : List String} {c : Card} :
    c ∈ (regenDeck g bl).1 ↔ c ∈ buildDeck ∧ c.id ∉ bl := by
  rw [regenDeck, shuffle_mem, List.mem_filter]
  simp

theorem regen_length (g : List Nat) (bl : List String) :
    (regenDeck g bl).1.length = availCount bl := by
  rw [regenDeck, (shuffle_perm _ _).length_eq, regen_filter_length]

theorem mem_idsOf {x : String} {l : List Card} :
    x ∈ idsOf l ↔ ∃ c ∈ l, c.id = x := by
  unfold idsOf
  rw [List.mem_map]

/-! ### takeUnique: output soundness (weak form, arbitrary input deck) -/

theorem takeLoop_sound (n : Nat) (inPlay0 : List String) :
    ∀ (fuel : Nat) (g : List Nat) (d taken : List Card)
      (takenIds inPlay : List String) (safety : Nat) (t r : List Card)
      (g2 : List Nat),
      takeLoop n fuel g d taken takenIds inPlay safety = some (t, r, g2) →
      (∀ x, x ∈ takenIds ↔ x ∈ idsOf taken) →
      (idsOf taken).Nodup →
      taken.length ≤ n →
      (∀ c ∈ taken, c.id ∉ inPlay0) →
      (∀ x ∈ inPlay0, x ∈ inPlay) →
      t.length = n ∧ (idsOf t).Nodup ∧ ∀ c ∈ t, c.id ∉ inPlay0 := by
  intro fuel
  induction fuel with
  | zero =>
    intro g d taken takenIds inPlay safety t r g2 hsome
    simp [takeLoop] at hsome
  | succ fuel ih =>
    intro g d taken takenIds inPlay safety t r g2 hsome hiff hnodup hlen
      hdisj hmono
    simp only [takeLoop] at hsome
    split at hsome
    · -- taken.length < n: one loop iteration; the recursive arguments are
      -- fully generalized, so only the shift outcome matters
      split at hsome
      · -- empty current deck: regenerate and continue, state unchanged
        exact ih _ _ _ _ _ _ _ _ _ hsome hiff hnodup hlen hdisj hmono
      · -- a card c was shifted off the front
        rename_i c rest heq
        split at hsome
        · exact ih _ _ _ _ _ _ _ _ _ hsome hiff hnodup hlen hdisj hmono
        · split at hsome
          · exact ih _ _ _ _ _ _ _ _ _ hsome hiff hnodup hlen hdisj hmono
          · -- c accepted
            rename_i hnotin hnottaken
            refine ih _ _ _ _ _ _ _ _ _ hsome ?_ ?_ ?_ ?_ ?_
            · intro x
              simp only [List.mem_cons, idsOf, List.map_append, List.map_cons,
                List.map_nil, List.mem_append]
              rw [hiff x]
              unfold idsOf
              constructor
              · rintro (h | h)
                · exact Or.inr (by simp [h])
                · exact Or.inl h
              · rintro (h | h)
                · exact Or.inr h
                · simp at h
                  exact Or.inl h
            · have hcnot : c.id ∉ idsOf taken := fun h =>
                hnottaken ((hiff _).mpr h)
              simp only [idsOf, List.map_append, List.map_cons, List.map_nil]
              rw [List.nodup_append]
              refine ⟨hnodup, List.nodup_singleton _, ?_⟩
              intro x hx
              simp only [List.mem_singleton]
              intro he
              exact hcnot (he ▸ hx)
            · rw [List.length_append, List.length_singleton]
              omega
            · intro e he
              rcases List.mem_append.mp he with h | h
              · exact hdisj e h
              · have : e = c := by simpa using h
                subst this
                exact fun h0 => hnotin (hmono _ h0)
            · intro x hx
              exact List.mem_cons_of_mem _ (hmono x hx)
    · -- taken.length ≥ n: the loop returns taken as-is
      rename_i hge
      have h := Option.some.inj hsome
      have ht : taken = t := congrArg Prod.fst h
      subst ht
      exact ⟨by omega, hnodup, hdisj⟩

theorem ids_append (a b : List Card) : idsOf (a ++ b) = idsOf a ++ idsOf b := by
  simp [idsOf]

theorem ids_cons (c : Card) (l : List Card) :
    idsOf (c :: l) = c.id :: idsOf l := rfl

theorem accept_iff {takenIds : List String} {taken : List Card} (c : Card)
    (hiff : ∀ x, x ∈ takenIds ↔ x ∈ idsOf taken) :
    ∀ x, x ∈ c.id :: takenIds ↔ x ∈ idsOf (taken ++ [c]) := by
  intro x
  rw [ids_append, List.mem_append, List.mem_cons, hiff x]
  simp [idsOf, or_comm]

theorem accept_nodup {taken : List Card} {c : Card}
    (hnodup : (idsOf taken).Nodup) (hc : c.id ∉ idsOf taken) :
    (idsOf (taken ++ [c])).Nodup := by
  rw [ids_append, List.nodup_append]
  refine ⟨hnodup, List.nodup_singleton _, ?_⟩
  intro x hx
  simp only [idsOf, List.map_cons, List.map_nil, List.mem_singleton]
  intro he
  exact hc (he ▸ hx)

/-- Strong postconditions of the draw loop: when the incoming deck is clean
    (no duplicate ids, disjoint from the blocked set and from the cards taken
    so far, all canonical), a successful run delivers `n` cards and a rest
    deck that together have no duplicate ids, avoid the original blocked set,
    and are all canonical. -/
theorem takeLoop_strong (n : Nat) (inPlay0 : List String) :
    ∀ (fuel : Nat) (g : List Nat) (d taken : List Card)
      (takenIds inPlay : List String) (safety : Nat) (t r : List Card)
      (g2 : List Nat),
      takeLoop n fuel g d taken takenIds inPlay safety = some (t, r, g2) →
      (∀ x, x ∈ takenIds ↔ x ∈ idsOf taken) →
      (idsOf taken).Nodup →
      taken.length ≤ n →
      (∀ c ∈ taken, c.id ∉ inPlay0) →
      (∀ x ∈ inPlay0, x ∈ inPlay) →
      (idsOf d).Nodup →
      (∀ x ∈ idsOf d, x ∉ inPlay) →
      (∀ x ∈ idsOf d, x ∉ idsOf taken) →
      (∀ c ∈ d, c ∈ buildDeck) →
      (∀ c ∈ taken, c ∈ buildDeck) →
      t.length = n ∧ (idsOf t ++ idsOf r).Nodup ∧
        (∀ x ∈ idsOf t ++ idsOf r, x ∉ inPlay0) ∧
        (∀ c ∈ t, c ∈ buildDeck) ∧ ∀ c ∈ r, c ∈ buildDeck := by
  intro fuel
  induction fuel with
  | zero =>
    intro g d taken takenIds inPlay safety t r g2 hsome
    simp [takeLoop] at hsome
  | succ fuel ih =>
    intro g d taken takenIds inPlay safety t r g2 hsome hiff hnodup hlen
      hdisj hmono hdn hdclean hdtaken hdcanon htcanon
    simp only [takeLoop] at hsome
    -- facts about a regenerated deck, for any stream
    have hregen : ∀ g0 : List Nat,
        (idsOf (regenDeck g0 (inPlay ++ takenIds)).1).Nodup ∧
        (∀ x ∈ idsOf (regenDeck g0 (inPlay ++ takenIds)).1, x ∉ inPlay) ∧
        (∀ x ∈ idsOf (regenDeck g0 (inPlay ++ takenIds)).1,
          x ∉ idsOf taken) ∧
        ∀ c ∈ (regenDeck g0 (inPlay ++ takenIds)).1, c ∈ buildDeck := by
      intro g0
      refine ⟨regen_nodup g0 _, ?_, ?_, ?_⟩
      · intro x hx
        rcases mem_idsOf.mp hx with ⟨c, hc, rfl⟩
        have := (regen_mem.mp hc).2
        rw [List.mem_append] at this
        exact fun h => this (Or.inl h)
      · intro x hx
        rcases mem_idsOf.mp hx with ⟨c, hc, rfl⟩
        have := (regen_mem.mp hc).2
        rw [List.mem_append] at this
        exact fun h => this (Or.inr ((hiff _).mpr h))
      · intro c hc
        exact (regen_mem.mp hc).1
    -- the accept step, uniformly over the source deck `c :: rest` and the
    -- stream/counter arguments of the recursive call
    have haccept : ∀ (c : Card) (rest : List Card) (g1 : List Nat)
        (safety2 : Nat),
        takeLoop n fuel g1 rest (taken ++ [c]) (c.id :: takenIds)
          (c.id :: inPlay) safety2 = some (t, r, g2) →
        taken.length < n →
        (idsOf (c :: rest)).Nodup →
        (∀ x ∈ idsOf (c :: rest), x ∉ inPlay) →
        (∀ x ∈ idsOf (c :: rest), x ∉ idsOf taken) →
        (∀ e ∈ c :: rest, e ∈ buildDeck) →
        t.length = n ∧ (idsOf t ++ idsOf r).Nodup ∧
          (∀ x ∈ idsOf t ++ idsOf r, x ∉ inPlay0) ∧
          (∀ c ∈ t, c ∈ buildDeck) ∧ ∀ c ∈ r, c ∈ buildDeck := by
      intro c rest g1 safety2 hrec hlt hsn hsclean hstaken hscanon
      have hcid_inPlay : c.id ∉ inPlay := hsclean c.id (by simp [ids_cons])
      have hcid_taken : c.id ∉ idsOf taken :=
        hstaken c.id (by simp [ids_cons])
      rw [ids_cons, List.nodup_cons] at hsn
      refine ih _ _ _ _ _ _ _ _ _ hrec (accept_iff c hiff)
        (accept_nodup hnodup hcid_taken) ?_ ?_ ?_ hsn.2 ?_ ?_ ?_ ?_
      · rw [List.length_append, List.length_singleton]
        omega
      · intro e he
        rcases List.mem_append.mp he with h | h
        · exact hdisj e h
        · have : e = c := by simpa using h
          subst this
          exact fun h0 => hcid_inPlay (hmono _ h0)
      · intro x hx
        exact List.mem_cons_of_mem _ (hmono x hx)
      · intro x hx
        have hx2 : x ∈ idsOf (c :: rest) := by
          rw [ids_cons]
          exact List.mem_cons_of_mem _ hx
        intro hmem
        rcases List.mem_cons.mp hmem with h | h
        · exact hsn.1 (h ▸ hx)
        · exact hsclean x hx2 h
      · intro x hx
        have hx2 : x ∈ idsOf (c :: rest) := by
          rw [ids_cons]
          exact List.mem_cons_of_mem _ hx
        rw [ids_append]
        intro hmem
        rcases List.mem_append.mp hmem with h | h
        · exact hstaken x hx2 h
        · have : x = c.id := by simpa [idsOf] using h
          exact hsn.1 (this ▸ hx)
      · intro e he
        exact hscanon e (List.mem_cons_of_mem _ he)
      · intro e he
        rcases List.mem_append.mp he with h | h
        · exact htcanon e h
        · have he2 : e = c := by simpa using h
          rw [he2]
          exact hscanon c (by simp)
    split at hsome
    · rename_i hlt
      by_cases hs : 500 < safety + 1
      · rw [if_pos hs] at hsome
        dsimp only at hsome
        rcases hR : (regenDeck g (inPlay ++ takenIds)).1 with _ | ⟨c, rest⟩
        · rw [hR] at hsome
          dsimp only at hsome
          rcases hregen ((regenDeck g (inPlay ++ takenIds)).2) with
            ⟨h1, h2, h3, h4⟩
          exact ih _ _ _ _ _ _ _ _ _ hsome hiff hnodup hlen hdisj hmono
            h1 h2 h3 h4 htcanon
        · rw [hR] at hsome
          dsimp only at hsome
          rcases hregen g with ⟨h1, h2, h3, h4⟩
          rw [hR] at h1 h2 h3 h4
          have hcid_inPlay : c.id ∉ inPlay := h2 c.id (by simp [ids_cons])
          have hcid_takenIds : c.id ∉ takenIds := fun h =>
            h3 c.id (by simp [ids_cons]) ((hiff _).mp h)
          rw [if_neg hcid_inPlay, if_neg hcid_takenIds] at hsome
          exact haccept c rest _ _ hsome hlt h1 h2 h3 h4
      · rw [if_neg hs] at hsome
        dsimp only at hsome
        rcases hd : d with _ | ⟨c, rest⟩
        · rw [hd] at hsome
          dsimp only at hsome
          rcases hregen g with ⟨h1, h2, h3, h4⟩
          exact ih _ _ _ _ _ _ _ _ _ hsome hiff hnodup hlen hdisj hmono
            h1 h2 h3 h4 htcanon
        · rw [hd] at hsome
          dsimp only at hsome
          rw [hd] at hdn hdclean hdtaken hdcanon
          have hcid_inPlay : c.id ∉ inPlay := hdclean c.id (by simp [ids_cons])
          have hcid_takenIds : c.id ∉ takenIds := fun h =>
            hdtaken c.id (by simp [ids_cons]) ((hiff _).mp h)
          rw [if_neg hcid_inPlay, if_neg hcid_takenIds] at hsome
          exact haccept c rest _ _ hsome hlt hdn hdclean hdtaken hdcanon
    · rename_i hge
      have h := Option.some.inj hsome
      have ht : taken = t := congrArg Prod.fst h
      have hr : d = r := congrArg (fun p => p.2.1) h
      subst ht
      subst hr
      refine ⟨by omega, ?_, ?_, htcanon, hdcanon⟩
      · rw [List.nodup_append]
        refine ⟨hnodup, hdn, ?_⟩
        intro x hx hxd
        exact hdtaken x hxd hx
      · intro x hx
        rcases List.mem_append.mp hx with h | h
        · rcases mem_idsOf.mp h with ⟨c, hc, rfl⟩
          exact hdisj c hc
        · intro h0
          exact hdclean x h (hmono x h0)

theorem availCount_append_sub (tIds ip : List String)
    (hsub : ∀ i ∈ tIds, i ∈ ip) :
    availCount (ip ++ tIds) = availCount ip := by
  unfold availCount
  congr 1
  apply List.filter_congr
  intro i _
  have : (i ∈ ip ++ tIds) ↔ i ∈ ip := by
    rw [List.mem_append]
    exact ⟨fun h => h.elim id (hsub _), Or.inl⟩
  simp [this]

theorem regen_clean (g : List Nat) (bl : List String) :
    ∀ x ∈ idsOf (regenDeck g bl).1, x ∉ bl := by
  intro x hx
  rcases mem_idsOf.mp hx with ⟨c, hc, rfl⟩
  exact (regen_mem.mp hc).2

/-- Termination, clean phase: once the current deck is disjoint from the
    blocked set (as after any regeneration), every iteration accepts a card,
    so `k = n - taken.length` more fuel (plus one) suffices. -/
theorem takeLoop_isSome_clean (n : Nat) :
    ∀ (fuel : Nat) (g : List Nat) (d taken : List Card)
      (takenIds inPlay : List String) (safety : Nat),
      (∀ x, x ∈ takenIds ↔ x ∈ idsOf taken) →
      (∀ x ∈ takenIds, x ∈ inPlay) →
      (idsOf d).Nodup →
      (∀ x ∈ idsOf d, x ∉ inPlay) →
      n - taken.length ≤ availCount inPlay →
      n - taken.length ≤ d.length →
      n - taken.length + 1 ≤ fuel →
      (takeLoop n fuel g d taken takenIds inPlay safety).isSome := by
  intro fuel
  induction fuel with
  | zero =>
    intro g d taken takenIds inPlay safety _ _ _ _ _ _ hfuel
    omega
  | succ fuel ih =>
    intro g d taken takenIds inPlay safety hiff hsub hdn hdclean havail
      hdlen hfuel
    simp only [takeLoop]
    by_cases hlt : taken.length < n
    · rw [if_pos hlt]
      have hk : 1 ≤ n - taken.length := by omega
      -- accepting a clean card c from a clean deck c :: rest preserves the
      -- clean invariant with one less card needed
      have hstep : ∀ (c : Card) (rest : List Card) (g1 : List Nat)
          (safety2 : Nat),
          (idsOf (c :: rest)).Nodup →
          (∀ x ∈ idsOf (c :: rest), x ∉ inPlay) →
          n - taken.length - 1 ≤ availCount (c.id :: inPlay) →
          n - taken.length - 1 ≤ rest.length →
          (takeLoop n fuel g1 rest (taken ++ [c]) (c.id :: takenIds)
            (c.id :: inPlay) safety2).isSome := by
        intro c rest g1 safety2 hn hclean havail2 hlen2
        rw [ids_cons, List.nodup_cons] at hn
        refine ih g1 rest (taken ++ [c]) _ _ safety2
          (accept_iff c hiff) ?_ hn.2 ?_ ?_ ?_ ?_
        · intro x hx
          rcases List.mem_cons.mp hx with h | h
          · exact h ▸ List.mem_cons_self _ _
          · exact List.mem_cons_of_mem _ (hsub x h)
        · intro x hx
          have hx2 : x ∈ idsOf (c :: rest) := by
            rw [ids_cons]; exact List.mem_cons_of_mem _ hx
          intro hmem
          rcases List.mem_cons.mp hmem with h | h
          · exact hn.1 (h ▸ hx)
          · exact hclean x hx2 h
        · rw [List.length_append, List.length_singleton]
          omega
        · rw [List.length_append, List.length_singleton]
          omega
        · rw [List.length_append, List.length_singleton]
          omega
      by_cases hs : 500 < safety + 1
      · rw [if_pos hs]
        dsimp only
        have hRlen : (regenDeck g (inPlay ++ takenIds)).1.length =
            availCount inPlay := by
          rw [regen_length, availCount_append_sub _ _ hsub]
        rcases hR : (regenDeck g (inPlay ++ takenIds)).1 with _ | ⟨c, rest⟩
        · exfalso
          rw [hR] at hRlen
          simp at hRlen
          omega
        · dsimp only
          have hRn := regen_nodup g (inPlay ++ takenIds)
          rw [hR] at hRn
          have hRclean : ∀ x ∈ idsOf (c :: rest), x ∉ inPlay := by
            intro x hx h
            have := regen_clean g (inPlay ++ takenIds) x (by rw [hR]; exact hx)
            exact this (List.mem_append.mpr (Or.inl h))
          have hc1 : c.id ∉ inPlay := hRclean c.id (by simp [ids_cons])
          have hc2 : c.id ∉ takenIds := by
            intro h
            have := regen_clean g (inPlay ++ takenIds) c.id
              (by rw [hR]; simp [ids_cons])
            exact this (List.mem_append.mpr (Or.inr h))
          rw [if_neg hc1, if_neg hc2]
          apply hstep c rest _ _ hRn hRclean
          · have := availCount_cons c.id inPlay
            omega
          · rw [hR] at hRlen
            simp only [List.length_cons] at hRlen
            omega
      · rw [if_neg hs]
        dsimp only
        cases d with
        | nil =>
          exfalso
          simp at hdlen
          omega
        | cons c rest =>
          dsimp only
          have hc1 : c.id ∉ inPlay := hdclean c.id (by simp [ids_cons])
          have hc2 : c.id ∉ takenIds := fun h => hc1 (hsub _ h)
          rw [if_neg hc1, if_neg hc2]
          apply hstep c rest _ _ hdn hdclean
          · have := availCount_cons c.id inPlay
            omega
          · simp only [List.length_cons] at hdlen
            omega
    · rw [if_neg hlt]
      rfl

/-- Termination, general phase: the safety counter forces a regeneration
    (hence a clean deck) within at most 501 iterations, so
    `503 + (n - taken.length) - safety` fuel always suffices while enough
    canonical ids remain available. -/
theorem takeLoop_isSome (n : Nat) :
    ∀ (fuel : Nat) (g : List Nat) (d taken : List Card)
      (takenIds inPlay : List String) (safety : Nat),
      (∀ x, x ∈ takenIds ↔ x ∈ idsOf taken) →
      (∀ x ∈ takenIds, x ∈ inPlay) →
      (idsOf d).Nodup →
      n - taken.length ≤ availCount inPlay →
      safety ≤ 500 →
      503 + (n - taken.length) - safety ≤ fuel →
      (takeLoop n fuel g d taken takenIds inPlay safety).isSome := by
  intro fuel
  induction fuel with
  | zero =>
    intro g d taken takenIds inPlay safety _ _ _ _ hsafe hfuel
    omega
  | succ fuel ih =>
    intro g d taken takenIds inPlay safety hiff hsub hdn havail hsafe hfuel
    simp only [takeLoop]
    by_cases hlt : taken.length < n
    · rw [if_pos hlt]
      have hk : 1 ≤ n - taken.length := by omega
      by_cases hs : 500 < safety + 1
      · rw [if_pos hs]
        dsimp only
        have hRlen : (regenDeck g (inPlay ++ takenIds)).1.length =
            availCount inPlay := by
          rw [regen_length, availCount_append_sub _ _ hsub]
        rcases hR : (regenDeck g (inPlay ++ takenIds)).1 with _ | ⟨c, rest⟩
        · exfalso
          rw [hR] at hRlen
          simp at hRlen
          omega
        · dsimp only
          have hRn := regen_nodup g (inPlay ++ takenIds)
          rw [hR] at hRn
          have hRclean : ∀ x ∈ idsOf (c :: rest), x ∉ inPlay := by
            intro x hx h
            have := regen_clean g (inPlay ++ takenIds) x (by rw [hR]; exact hx)
            exact this (List.mem_append.mpr (Or.inl h))
          have hc1 : c.id ∉ inPlay := hRclean c.id (by simp [ids_cons])
          have hc2 : c.id ∉ takenIds := by
            intro h
            have := regen_clean g (inPlay ++ takenIds) c.id
              (by rw [hR]; simp [ids_cons])
            exact this (List.mem_append.mpr (Or.inr h))
          rw [if_neg hc1, if_neg hc2]
          rw [ids_cons, List.nodup_cons] at hRn
          refine takeLoop_isSome_clean n fuel _ rest (taken ++ [c]) _ _ 0
            (accept_iff c hiff) ?_ hRn.2 ?_ ?_ ?_ ?_
          · intro x hx
            rcases List.mem_cons.mp hx with h | h
            · exact h ▸ List.mem_cons_self _ _
            · exact List.mem_cons_of_mem _ (hsub x h)
          · intro x hx
            have hx2 : x ∈ idsOf (c :: rest) := by
              rw [ids_cons]; exact List.mem_cons_of_mem _ hx
            intro hmem
            rcases List.mem_cons.mp hmem with h | h
            · exact hRn.1 (h ▸ hx)
            · exact hRclean x hx2 h
          · rw [List.length_append, List.length_singleton]
            have := availCount_cons c.id inPlay
            omega
          · rw [List.length_append, List.length_singleton]
            rw [hR] at hRlen
            simp only [List.length_cons] at hRlen
            omega
          · rw [List.length_append, List.length_singleton]
            omega
      · rw [if_neg hs]
        dsimp only
        cases d with
        | nil =>
          refine takeLoop_isSome_clean n fuel _ _ taken _ _ (safety + 1)
            hiff hsub (regen_nodup _ _) ?_ ?_ ?_ ?_
          · intro x hx h
            have := regen_clean _ (inPlay ++ takenIds) x hx
            exact this (List.mem_append.mpr (Or.inl h))
          · exact havail
          · rw [regen_length, availCount_append_sub _ _ hsub]
            exact havail
          · omega
        | cons c rest =>
          dsimp only
          rw [ids_cons, List.nodup_cons] at hdn
          by_cases h1 : c.id ∈ inPlay
          · rw [if_pos h1]
            refine ih _ rest taken _ _ (safety + 1) hiff hsub hdn.2
              havail ?_ ?_
            · omega
            · omega
          · rw [if_neg h1]
            by_cases h2 : c.id ∈ takenIds
            · rw [if_pos h2]
              refine ih _ rest taken _ _ (safety + 1) hiff hsub hdn.2
                havail ?_ ?_
              · omega
              · omega
            · rw [if_neg h2]
              refine ih _ rest (taken ++ [c]) _ _ (safety + 1)
                (accept_iff c hiff) ?_ hdn.2 ?_ ?_ ?_
              · intro x hx
                rcases List.mem_cons.mp hx with h | h
                · exact h ▸ List.mem_cons_self _ _
                · exact List.mem_cons_of_mem _ (hsub x h)
              · rw [List.length_append, List.length_singleton]
                have := availCount_cons c.id inPlay
                omega
              · omega
              · rw [List.length_append, List.length_singleton]
                omega
    · rw [if_neg hlt]
      rfl

/-- Any successful `takeUnique` returns exactly `n` pairwise-distinct cards
    disjoint from the blocked set, whatever the input deck looked like. -/
theorem takeUnique_sound {g : List Nat} {deck : List Card} {n : Nat}
    {inPlay : List String} {t r : List Card} {g2 : List Nat}
    (hsome : takeUnique g deck n inPlay = some (t, r, g2)) :
    t.length = n ∧ (idsOf t).Nodup ∧ ∀ c ∈ t, c.id ∉ inPlay := by
  simp only [takeUnique] at hsome
  exact takeLoop_sound n inPlay 1000 _ _ _ _ _ _ _ _ _ hsome
    (by simp [idsOf]) (by simp [idsOf]) (by simp) (by simp) fun x h => h

/-- `takeUnique` succeeds whenever at most `availCount inPlay` cards are
    requested (the condition of claim C5). -/
theorem takeUnique_isSome (g : List Nat) (deck : List Card) (n : Nat)
    (inPlay : List String) (hn : n ≤ availCount inPlay) :
    (takeUnique g deck n inPlay).isSome := by
  have h77 := availCount_le inPlay
  simp only [takeUnique]
  by_cases hdup : hasDuplicatesById deck
  · rw [if_pos hdup]
    refine takeLoop_isSome n 1000 _ _ _ _ _ 0 (by simp [idsOf])
      (by simp) (regen_nodup _ _) ?_ ?_ ?_
    · simpa using hn
    · omega
    · simp only [List.length_nil]
      omega
  · rw [if_neg hdup]
    have hdn : (idsOf deck).Nodup :=
      (hasDuplicatesById_eq_false deck).mp (Bool.not_eq_true _ ▸ hdup)
    refine takeLoop_isSome n 1000 _ _ _ _ _ 0 (by simp [idsOf])
      (by simp) hdn ?_ ?_ ?_
    · simpa using hn
    · omega
    · simp only [List.length_nil]
      omega

/-- Strong postconditions of `takeUnique` on a well-formed deck (no duplicate
    ids, disjoint from the blocked set, canonical): the taken cards and the
    rest deck together stay well-formed. -/
theorem takeUnique_strong {g : List Nat} {deck : List Card} {n : Nat}
    {inPlay : List String} {t r : List Card} {g2 : List Nat}
    (hsome : takeUnique g deck n inPlay = some (t, r, g2))
    (hdn : (idsOf deck).Nodup)
    (hdclean : ∀ x ∈ idsOf deck, x ∉ inPlay)
    (hdcanon : ∀ c ∈ deck, c ∈ buildDeck) :
    t.length = n ∧ (idsOf t ++ idsOf r).Nodup ∧
      (∀ x ∈ idsOf t ++ idsOf r, x ∉ inPlay) ∧
      (∀ c ∈ t, c ∈ buildDeck) ∧ ∀ c ∈ r, c ∈ buildDeck := by
  simp only [takeUnique] at hsome
  rw [(hasDuplicatesById_eq_false deck).mpr hdn] at hsome
  simp only [Bool.false_eq_true, if_false] at hsome
  exact takeLoop_strong n inPlay 1000 _ _ _ _ _ _ _ _ _ hsome
    (by simp [idsOf]) (by simp [idsOf]) (by simp) (by simp) (fun x h => h)
    hdn hdclean (by simp [idsOf]) hdcanon (by simp)

/-! ### normalize: identity on valid states, idempotence, field preservation -/

theorem normalize_eq_self {s : State} (g : List Nat)
    (hp : (idsOf s.playerHand).Nodup) (hd : (idsOf s.dealerHand).Nodup)
    (hdeck : (idsOf s.deck).Nodup)
    (hdisj : ∀ x ∈ idsOf s.deck,
      x ∉ idsOf s.playerHand ∧ x ∉ idsOf s.dealerHand) :
    normalize g s = (s, g) := by
  simp only [normalize, dedupeHand_eq_self hp, dedupeHand_eq_self hd]
  have hdeckOk : (!hasDuplicatesById s.deck && s.deck.all fun c =>
      !decide (c.id ∈ idsOf s.playerHand ++ idsOf s.dealerHand)) = true := by
    rw [Bool.and_eq_true]
    constructor
    · rw [Bool.not_eq_true', hasDuplicatesById_eq_false]
      exact hdeck
    · rw [List.all_eq_true]
      intro c hc
      have := hdisj c.id (mem_idsOf.mpr ⟨c, hc, rfl⟩)
      simp only [Bool.not_eq_true', decide_eq_false_iff_not, List.mem_append]
      rintro (h | h)
      · exact this.1 h
      · exact this.2 h
  rw [if_pos hdeckOk]
  simp

theorem normalize_fields (g : List Nat) (s : State) :
    (normalize g s).1.phase = s.phase ∧ (normalize g s).1.bet = s.bet ∧
    (normalize g s).1.bankroll = s.bankroll ∧
    (normalize g s).1.playerInitialBust = s.playerInitialBust ∧
    (normalize g s).1.log = s.log ∧ (normalize g s).1.seed = s.seed ∧
    (normalize g s).1.logOpen = s.logOpen ∧
    (normalize g s).1.message = s.message := by
  simp only [normalize]
  split
  · split
    · exact ⟨rfl, rfl, rfl, rfl, rfl, rfl, rfl, rfl⟩
    · exact ⟨rfl, rfl, rfl, rfl, rfl, rfl, rfl, rfl⟩
  · exact ⟨rfl, rfl, rfl, rfl, rfl, rfl, rfl, rfl⟩

theorem normalize_wf (g : List Nat) (s : State) :
    (idsOf (normalize g s).1.playerHand).Nodup ∧
    (idsOf (normalize g s).1.dealerHand).Nodup ∧
    (idsOf (normalize g s).1.deck).Nodup ∧
    ∀ x ∈ idsOf (normalize g s).1.deck,
      x ∉ idsOf (normalize g s).1.playerHand ∧
      x ∉ idsOf (normalize g s).1.dealerHand := by
  simp only [normalize]
  split
  · rename_i hok
    rw [Bool.and_eq_true, Bool.not_eq_true', hasDuplicatesById_eq_false,
      List.all_eq_true] at hok
    have hdisj : ∀ x ∈ idsOf s.deck,
        x ∉ idsOf (dedupeHand s.playerHand) ∧
        x ∉ idsOf (dedupeHand s.dealerHand) := by
      intro x hx
      rcases mem_idsOf.mp hx with ⟨c, hc, rfl⟩
      have := hok.2 c hc
      simp only [Bool.not_eq_true', decide_eq_false_iff_not,
        List.mem_append] at this
      exact ⟨fun h => this (Or.inl h), fun h => this (Or.inr h)⟩
    split
    · rename_i hsame
      refine ⟨?_, ?_, hok.1, ?_⟩
      · rw [← hsame.1]
        exact dedupeHand_nodup _
      · rw [← hsame.2]
        exact dedupeHand_nodup _
      · intro x hx
        rw [← hsame.1, ← hsame.2]
        exact hdisj x hx
    · exact ⟨dedupeHand_nodup _, dedupeHand_nodup _, hok.1, hdisj⟩
  · refine ⟨dedupeHand_nodup _, dedupeHand_nodup _, regen_nodup _ _, ?_⟩
    intro x hx
    have := regen_clean _ _ x hx
    rw [List.mem_append] at this
    exact ⟨fun h => this (Or.inl h), fun h => this (Or.inr h)⟩

theorem normalize_idem (g g' : List Nat) (s : State) :
    normalize g' (normalize g s).1 = ((normalize g s).1, g') := by
  obtain ⟨h1, h2, h3, h4⟩ := normalize_wf g s
  exact normalize_eq_self g' h1 h2 h3 h4

/-! ### The dealer draw loop -/

theorem nodup3_iff (a b c : List String) :
    (a ++ b ++ c).Nodup ↔
      a.Nodup ∧ b.Nodup ∧ c.Nodup ∧ a.Disjoint b ∧ a.Disjoint c ∧
        b.Disjoint c := by
  simp only [List.nodup_append, List.disjoint_append_left]
  tauto

/-- One dealer draw preserves the global no-duplicates/canonical state, and
    the loop only returns once the dealer total is at least 17 (in
    centi-points, 1700): the 50-draw cap is unreachable because every
    canonical card adds at least 1.01 to a total that starts at least at
    `draws` points. -/
theorem dealerLoop_main (ph : List Card) :
    ∀ (fuel : Nat) (g : List Nat) (deck dh : List Card) (draws : Nat)
      (dh' deck' : List Card) (g' : List Nat),
      dealerLoop ph fuel g deck dh draws = some (dh', deck', g') →
      (idsOf deck ++ idsOf ph ++ idsOf dh).Nodup →
      (∀ c ∈ deck, c ∈ buildDeck) →
      (∀ c ∈ ph, c ∈ buildDeck) →
      (∀ c ∈ dh, c ∈ buildDeck) →
      100 * draws ≤ centi dh →
      (idsOf deck' ++ idsOf ph ++ idsOf dh').Nodup ∧
        (∀ c ∈ deck', c ∈ buildDeck) ∧ (∀ c ∈ dh', c ∈ buildDeck) ∧
        1700 ≤ centi dh' := by
  intro fuel
  induction fuel with
  | zero =>
    intro g deck dh draws dh' deck' g' hsome
    simp [dealerLoop] at hsome
  | succ fuel ih =>
    intro g deck dh draws dh' deck' g' hsome hnd hdcanon hpcanon hhcanon
      hdraws
    simp only [dealerLoop] at hsome
    split at hsome
    · rename_i hlt
      rw [handTotal_lt_stand_iff] at hlt
      have hdrawlt : draws < 17 := by omega
      rcases htu : takeUnique g deck 1 (idsOf ph ++ idsOf dh) with _ |
        ⟨taken, rest, g2⟩
      · rw [htu] at hsome
        exact absurd hsome (by simp)
      · rw [htu] at hsome
        dsimp only at hsome
        rw [if_neg (by omega : ¬50 < draws + 1)] at hsome
        -- the entry state decomposed
        rcases (nodup3_iff _ _ _).mp hnd with ⟨hn1, hn2, hn3, hd12, hd13, hd23⟩
        have hdclean : ∀ x ∈ idsOf deck, x ∉ idsOf ph ++ idsOf dh := by
          intro x hx
          rw [List.mem_append]
          rintro (h | h)
          · exact hd12 hx h
          · exact hd13 hx h
        obtain ⟨hlen1, hnodtr, hdisjtr, hcant, hcanr⟩ :=
          takeUnique_strong htu hn1 hdclean hdcanon
        obtain ⟨c, rfl⟩ := List.length_eq_one.mp hlen1
        have hcentic : 101 ≤ centi [c] := by
          have := centi_card_ge c (hcant c (by simp))
          simp [centi]
          omega
        rcases List.nodup_append.mp hnodtr with ⟨hnt, hnr, hdtr⟩
        have hdisjt : ∀ x ∈ idsOf [c], x ∉ idsOf ph ++ idsOf dh := by
          intro x hx
          exact hdisjtr x (List.mem_append.mpr (Or.inl hx))
        have hdisjr : ∀ x ∈ idsOf rest, x ∉ idsOf ph ++ idsOf dh := by
          intro x hx
          exact hdisjtr x (List.mem_append.mpr (Or.inr hx))
        refine ih _ _ _ _ _ _ _ hsome ?_ hcanr hpcanon ?_ ?_
        · rw [nodup3_iff]
          refine ⟨hnr, hn2, ?_, ?_, ?_, ?_⟩
          · rw [ids_append, List.nodup_append]
            refine ⟨hn3, hnt, ?_⟩
            intro x hx hxc
            exact hdisjt x hxc (List.mem_append.mpr (Or.inr hx))
          · intro x hx h
            exact hdisjr x hx (List.mem_append.mpr (Or.inl h))
          · intro x hx h
            rw [ids_append, List.mem_append] at h
            rcases h with h | h
            · exact hdisjr x hx (List.mem_append.mpr (Or.inr h))
            · exact hdtr h hx
          · intro x hx h
            rw [ids_append, List.mem_append] at h
            rcases h with h | h
            · exact hd23 hx h
            · exact hdisjt x h (List.mem_append.mpr (Or.inl hx))
        · intro e he
          rcases List.mem_append.mp he with h | h
          · exact hhcanon e h
          · have : e = c := by simpa using h
            rw [this]
            exact hcant c (by simp)
        · rw [centi_append]
          omega
    · rename_i hge
      rw [handTotal_lt_stand_iff] at hge
      have h := Option.some.inj hsome
      have h1 : dh = dh' := congrArg Prod.fst h
      have h2 : deck = deck' := congrArg (fun p => p.2.1) h
      subst h1
      subst h2
      exact ⟨hnd, hdcanon, hhcanon, by omega⟩

/-! ### dealerPlay resolution -/

theorem getLast?_drop (l : List LogEntry) (k : Nat) (h : k < l.length) :
    (l.drop k).getLast? = l.getLast? := by
  rw [List.getLast?_eq_getElem?, List.getLast?_eq_getElem?,
    List.getElem?_drop, List.length_drop]
  congr 1
  omega

theorem pushLog_log (now : Nat) (s : State) (k note : String) :
    (pushLog now s k note).log.length = min (s.log.length + 1) 200 ∧
    (pushLog now s k note).log.getLast? =
      some { atMs := now, kind := k, note := note, snapshot := snapshotOf s } := by
  simp only [pushLog]
  split
  · rename_i hlong
    rw [List.length_append, List.length_singleton] at hlong
    constructor
    · rw [List.length_drop, List.length_append, List.length_singleton]
      omega
    · rw [getLast?_drop, List.getLast?_concat]
      rw [List.length_append, List.length_singleton]
      omega
  · rename_i hshort
    rw [List.length_append, List.length_singleton] at hshort
    constructor
    · rw [List.length_append, List.length_singleton]
      omega
    · exact List.getLast?_concat _

/-- Resolution facts of DEALER_PLAY that hold for every state (no
    well-formedness needed): the result is DONE, the player's hand and the
    bet are untouched, and in the dealt-bust branch the outcome is a pure
    function of whether the dealer's final total busts. -/
theorem dealerPlay_weak {now : Nat} {g : List Nat} {s s' : State}
    {g' : List Nat} (hsome : dealerPlay now g s = some (s', g')) :
    s'.phase = .DONE ∧ s'.playerHand = s.playerHand ∧ s'.bet = s.bet ∧
    s'.seed = s.seed ∧ s'.logOpen = s.logOpen ∧
    s'.playerInitialBust = s.playerInitialBust ∧
    (s'.bankroll = s.bankroll + s.bet ∨ s'.bankroll = s.bankroll - s.bet ∨
      s'.bankroll = s.bankroll) ∧
    (s.playerInitialBust = true →
      (BUST < handTotal s'.dealerHand → s'.bankroll = s.bankroll + s.bet) ∧
      (¬BUST < handTotal s'.dealerHand → s'.bankroll = s.bankroll - s.bet)) := by
  simp only [dealerPlay] at hsome
  split at hsome
  · exact absurd hsome (by simp)
  · split at hsome
    · exact absurd hsome (by simp)
    · rename_i dh0 deck0 g0 heq1 dh deck g1 heq2
      split at hsome
      · rename_i hb
        split at hsome
        · rename_i hBust
          have he := congrArg Prod.fst (Option.some.inj hsome)
          subst he
          exact ⟨rfl, rfl, rfl, rfl, rfl, rfl, Or.inl rfl,
            fun _ => ⟨fun _ => rfl, fun hn => absurd hBust hn⟩⟩
        · rename_i hBust
          have he := congrArg Prod.fst (Option.some.inj hsome)
          subst he
          exact ⟨rfl, rfl, rfl, rfl, rfl, rfl, Or.inr (Or.inl rfl),
            fun _ => ⟨fun hc => absurd hc hBust, fun _ => rfl⟩⟩
      · rename_i hb
        split at hsome
        · have he := congrArg Prod.fst (Option.some.inj hsome)
          subst he
          exact ⟨rfl, rfl, rfl, rfl, rfl, rfl, Or.inl rfl,
            fun h => absurd h (by simp [hb])⟩
        · split at hsome
          · have he := congrArg Prod.fst (Option.some.inj hsome)
            subst he
            exact ⟨rfl, rfl, rfl, rfl, rfl, rfl, Or.inl rfl,
              fun h => absurd h (by simp [hb])⟩
          · split at hsome
            · have he := congrArg Prod.fst (Option.some.inj hsome)
              subst he
              exact ⟨rfl, rfl, rfl, rfl, rfl, rfl, Or.inr (Or.inl rfl),
                fun h => absurd h (by simp [hb])⟩
            · have he := congrArg Prod.fst (Option.some.inj hsome)
              subst he
              exact ⟨rfl, rfl, rfl, rfl, rfl, rfl, Or.inr (Or.inr rfl),
                fun h => absurd h (by simp [hb])⟩

theorem disj_symm {l1 l2 : List String} (h : l1.Disjoint l2) :
    l2.Disjoint l1 :=
  fun _ hx hx2 => h hx2 hx

/-- Reassembly of the global no-duplicates invariant after a draw: if the
    taken cards `A` and rest deck `B` are jointly duplicate-free and disjoint
    from the in-play hands `P ++ D`, the state after appending the taken
    cards to either hand is again duplicate-free. -/
theorem nodup_shuffle4 (A B P D : List String)
    (hnd : (A ++ B).Nodup) (hPD : (P ++ D).Nodup)
    (hdisj : ∀ x ∈ A ++ B, x ∉ P ++ D) :
    (B ++ P ++ (D ++ A)).Nodup ∧ (B ++ (P ++ A) ++ D).Nodup := by
  rcases List.nodup_append.mp hnd with ⟨hA, hB, hAB⟩
  rcases List.nodup_append.mp hPD with ⟨hP, hD, hPDd⟩
  have hAP : A.Disjoint P := fun x hx h =>
    hdisj x (List.mem_append.mpr (Or.inl hx)) (List.mem_append.mpr (Or.inl h))
  have hAD : A.Disjoint D := fun x hx h =>
    hdisj x (List.mem_append.mpr (Or.inl hx)) (List.mem_append.mpr (Or.inr h))
  have hBP : B.Disjoint P := fun x hx h =>
    hdisj x (List.mem_append.mpr (Or.inr hx)) (List.mem_append.mpr (Or.inl h))
  have hBD : B.Disjoint D := fun x hx h =>
    hdisj x (List.mem_append.mpr (Or.inr hx)) (List.mem_append.mpr (Or.inr h))
  constructor
  · rw [nodup3_iff]
    refine ⟨hB, hP, ?_, hBP, ?_, ?_⟩
    · rw [List.nodup_append]
      exact ⟨hD, hA, disj_symm hAD⟩
    · intro x hx
      rw [List.mem_append]
      rintro (h | h)
      · exact hBD hx h
      · exact hAB h hx
    · intro x hx
      rw [List.mem_append]
      rintro (h | h)
      · exact hPDd hx h
      · exact hAP h hx
  · rw [nodup3_iff]
    refine ⟨hB, ?_, hD, ?_, hBD, ?_⟩
    · rw [List.nodup_append]
      exact ⟨hP, hA, disj_symm hAP⟩
    · intro x hx
      rw [List.mem_append]
      rintro (h | h)
      · exact hBP hx h
      · exact hAB h hx
    · intro x hx
      rw [List.mem_append] at hx
      intro h
      rcases hx with hx | hx
      · exact hPDd hx h
      · exact hAD hx h

/-- DEALER_PLAY on a well-formed state: the result keeps the global
    no-duplicates and canonical invariants, and the dealer ends at 17.00 or
    more (so the stand rule, not the 50-draw cap, ends the loop). -/
theorem dealerPlay_inv {now : Nat} {g : List Nat} {s s' : State}
    {g' : List Nat} (hsome : dealerPlay now g s = some (s', g'))
    (hnodup : (idsAll s).Nodup)
    (hcanon : ∀ c ∈ s.deck ++ s.playerHand ++ s.dealerHand, c ∈ buildDeck) :
    (idsAll s').Nodup ∧
    (∀ c ∈ s'.deck ++ s'.playerHand ++ s'.dealerHand, c ∈ buildDeck) ∧
    1700 ≤ centi s'.dealerHand := by
  have hdeckC : ∀ c ∈ s.deck, c ∈ buildDeck := fun c hc =>
    hcanon c (by simp [hc])
  have hpC : ∀ c ∈ s.playerHand, c ∈ buildDeck := fun c hc =>
    hcanon c (by simp [hc])
  have hdC : ∀ c ∈ s.dealerHand, c ∈ buildDeck := fun c hc =>
    hcanon c (by simp [hc])
  simp only [dealerPlay] at hsome
  split at hsome
  · exact absurd hsome (by simp)
  · rename_i dh0 deck0 g0 heq1
    -- loop entry state is well-formed
    have hentry : (idsOf deck0 ++ idsOf s.playerHand ++ idsOf dh0).Nodup ∧
        (∀ c ∈ deck0, c ∈ buildDeck) ∧ ∀ c ∈ dh0, c ∈ buildDeck := by
      by_cases hlen : s.dealerHand.length < 2
      · rw [if_pos hlen] at heq1
        rcases htu : takeUnique g s.deck (2 - s.dealerHand.length)
            (idsOf s.playerHand ++ idsOf s.dealerHand) with _ |
            ⟨taken, rest, gt⟩
        · rw [htu] at heq1
          exact absurd heq1 (by simp)
        · rw [htu] at heq1
          dsimp only at heq1
          have h1 := Option.some.inj heq1
          have hdh0 : s.dealerHand ++ taken = dh0 := congrArg Prod.fst h1
          have hdeck0 : rest = deck0 := congrArg (fun p => p.2.1) h1
          subst hdh0
          subst hdeck0
          rcases (nodup3_iff _ _ _).mp hnodup with
            ⟨hn1, hn2, hn3, hd12, hd13, hd23⟩
          have hdclean : ∀ x ∈ idsOf s.deck,
              x ∉ idsOf s.playerHand ++ idsOf s.dealerHand := by
            intro x hx
            rw [List.mem_append]
            rintro (h | h)
            · exact hd12 hx h
            · exact hd13 hx h
          obtain ⟨-, hnodtr, hdisjtr, hcant, hcanr⟩ :=
            takeUnique_strong htu hn1 hdclean hdeckC
          have hPD : (idsOf s.playerHand ++ idsOf s.dealerHand).Nodup := by
            rw [List.nodup_append]
            exact ⟨hn2, hn3, hd23⟩
          have := (nodup_shuffle4 _ _ _ _ hnodtr hPD hdisjtr).1
          refine ⟨?_, hcanr, ?_⟩
          · rw [ids_append]
            exact this
          intro c hc
          rcases List.mem_append.mp hc with h | h
          · exact hdC c h
          · exact hcant c h
      · rw [if_neg hlen] at heq1
        have h1 := Option.some.inj heq1
        have hdh0 : s.dealerHand = dh0 := congrArg Prod.fst h1
        have hdeck0 : s.deck = deck0 := congrArg (fun p => p.2.1) h1
        subst hdh0
        subst hdeck0
        exact ⟨hnodup, hdeckC, hdC⟩
    split at hsome
    · exact absurd hsome (by simp)
    · rename_i dh deck g1 heq2
      obtain ⟨hN, hCdeck, hCdh, hT⟩ := dealerLoop_main s.playerHand 60 g0
        deck0 dh0 0 dh deck g1 heq2 hentry.1 hentry.2.1 hpC hentry.2.2
        (by simp)
      have hC : ∀ c ∈ deck ++ s.playerHand ++ dh, c ∈ buildDeck := by
        intro c hc
        rcases List.mem_append.mp hc with h | h
        · rcases List.mem_append.mp h with h2 | h2
          · exact hCdeck c h2
          · exact hpC c h2
        · exact hCdh c h
      split at hsome
      · split at hsome
        · have he := congrArg Prod.fst (Option.some.inj hsome)
          subst he
          exact ⟨hN, hC, hT⟩
        · have he := congrArg Prod.fst (Option.some.inj hsome)
          subst he
          exact ⟨hN, hC, hT⟩
      · split at hsome
        · have he := congrArg Prod.fst (Option.some.inj hsome)
          subst he
          exact ⟨hN, hC, hT⟩
        · split at hsome
          · have he := congrArg Prod.fst (Option.some.inj hsome)
            subst he
            exact ⟨hN, hC, hT⟩
          · split at hsome
            · have he := congrArg Prod.fst (Option.some.inj hsome)
              subst he
              exact ⟨hN, hC, hT⟩
            · have he := congrArg Prod.fst (Option.some.inj hsome)
              subst he
              exact ⟨hN, hC, hT⟩

/-! ### The reachable-state invariant -/

theorem clampBet_bounds (n : Int) : 0 ≤ clampBet n ∧ clampBet n ≤ 50 := by
  unfold clampBet MAX_BET
  split_ifs <;> omega

/-- A state whose invariant holds normalizes to itself. -/
theorem normalize_of_inv {s : State} (hinv : Inv s) (g : List Nat) :
    normalize g s = (s, g) := by
  have hn : (idsOf s.deck ++ idsOf s.playerHand ++ idsOf s.dealerHand).Nodup :=
    hinv.nodup
  rcases (nodup3_iff _ _ _).mp hn with ⟨h1, h2, h3, h12, h13, h23⟩
  exact normalize_eq_self g h2 h3 h1 fun x hx => ⟨fun h => h12 hx h,
    fun h => h13 hx h⟩

/-- Appending a log entry (with or without a new message) touches no
    invariant-relevant field. -/
theorem inv_pushLog {s t : State} (hinv : Inv s) (now : Nat) (k note : String)
    (hdeck : t.deck = s.deck) (hph : t.playerHand = s.playerHand)
    (hdh : t.dealerHand = s.dealerHand) (hbank : t.bankroll = s.bankroll)
    (hbet : t.bet = s.bet) (hphase : t.phase = s.phase) :
    Inv (pushLog now t k note) := by
  refine ⟨?_, ?_, ?_, ?_, ?_, ?_, ?_⟩
  · show (idsOf t.deck ++ idsOf t.playerHand ++ idsOf t.dealerHand).Nodup
    rw [hdeck, hph, hdh]
    exact hinv.nodup
  · show ∀ c ∈ t.deck ++ t.playerHand ++ t.dealerHand, c ∈ buildDeck
    rw [hdeck, hph, hdh]
    exact hinv.canon
  · show 0 ≤ t.bet
    rw [hbet]
    exact hinv.betLo
  · show t.bet ≤ 50
    rw [hbet]
    exact hinv.betHi
  · show 0 ≤ t.bankroll
    rw [hbank]
    exact hinv.bank
  · show t.phase = .PLAYER ∨ t.phase = .DEALER → t.bet ≤ t.bankroll
    rw [hbet, hbank, hphase]
    exact hinv.betBank
  · show t.phase = .LOBBY → t.playerHand = [] ∧ t.dealerHand = []
    rw [hphase, hph, hdh]
    exact hinv.lobbyHands

theorem inv_init (g : List Nat) : Inv (initState g).1 := by
  refine ⟨?_, ?_, ?_, ?_, ?_, ?_, ?_⟩ <;>
    dsimp only [initState, idsAll]
  · simp only [idsOf_nil, List.append_nil]
    exact freshDeck_nodup _
  · intro c hc
    simp only [List.append_nil] at hc
    exact freshDeck_mem.mp hc
  · omega
  · omega
  · norm_num
  · intro h
    rcases h with h | h <;> exact absurd h (by decide)
  · intro _
    exact ⟨rfl, rfl⟩

/-- Field-equality transfer of the invariant (no field of the target differs
    from the source in any invariant-relevant way). -/
theorem inv_sameFields {s t : State} (hinv : Inv s)
    (hdeck : t.deck = s.deck) (hph : t.playerHand = s.playerHand)
    (hdh : t.dealerHand = s.dealerHand) (hbank : t.bankroll = s.bankroll)
    (hbet : t.bet = s.bet) (hphase : t.phase = s.phase) : Inv t := by
  refine ⟨?_, ?_, ?_, ?_, ?_, ?_, ?_⟩
  · show (idsOf t.deck ++ idsOf t.playerHand ++ idsOf t.dealerHand).Nodup
    rw [hdeck, hph, hdh]
    exact hinv.nodup
  · rw [hdeck, hph, hdh]
    exact hinv.canon
  · rw [hbet]
    exact hinv.betLo
  · rw [hbet]
    exact hinv.betHi
  · rw [hbank]
    exact hinv.bank
  · rw [hphase, hbet, hbank]
    exact hinv.betBank
  · rw [hphase, hph, hdh]
    exact hinv.lobbyHands

/-- `pushLog` preserves the invariant of its argument state. -/
theorem inv_pushLog2 {t : State} (h : Inv t) (now : Nat) (k note : String) :
    Inv (pushLog now t k note) :=
  inv_sameFields h rfl rfl rfl rfl rfl rfl

/-- Invariant transfer when only the bet changes in LOBBY (bounds supplied). -/
theorem inv_setBet_lobby {s : State} (hinv : Inv s) (hph : s.phase = .LOBBY)
    {t : State} (hdeck : t.deck = s.deck) (hp : t.playerHand = s.playerHand)
    (hd : t.dealerHand = s.dealerHand) (hbank : t.bankroll = s.bankroll)
    (hphase : t.phase = s.phase) (hbetLo : 0 ≤ t.bet) (hbetHi : t.bet ≤ 50) :
    Inv t := by
  refine ⟨?_, ?_, hbetLo, hbetHi, ?_, ?_, ?_⟩
  · show (idsOf t.deck ++ idsOf t.playerHand ++ idsOf t.dealerHand).Nodup
    rw [hdeck, hp, hd]
    exact hinv.nodup
  · rw [hdeck, hp, hd]
    exact hinv.canon
  · rw [hbank]
    exact hinv.bank
  · rw [hphase, hph]
    intro h
    rcases h with h | h <;> exact absurd h (by decide)
  · rw [hphase, hph, hp, hd]
    intro _
    exact hinv.lobbyHands hph

/-- Reassembly of the no-duplicates invariant after the interleaved 4-card
    deal of START: player takes slots 0 and 2, dealer takes 1 and 3. -/
theorem nodup_deal (i0 i1 i2 i3 : String) (R : List String)
    (h : (i0 :: i1 :: i2 :: i3 :: R).Nodup) :
    (R ++ [i0, i2] ++ [i1, i3]).Nodup := by
  have hp : (R ++ [i0, i2] ++ [i1, i3]).Perm (i0 :: i1 :: i2 :: i3 :: R) := by
    rw [List.perm_iff_count]
    intro x
    simp only [List.count_append, List.count_cons, List.count_nil]
    split_ifs <;> omega
  exact hp.symm.nodup h

/-- TOGGLE_LOG preserves the invariant. -/
theorem inv_step_toggle {now : Nat} {g : List Nat} {s s' : State}
    {g' : List Nat} (hinv : Inv s)
    (hred : reducer now g s .TOGGLE_LOG = some (s', g')) : Inv s' := by
  simp only [reducer, normalize_of_inv hinv] at hred
  have he := congrArg Prod.fst (Option.some.inj hred)
  subst he
  exact inv_sameFields hinv rfl rfl rfl rfl rfl rfl

/-- RESET_BET preserves the invariant. -/
theorem inv_step_resetBet {now : Nat} {g : List Nat} {s s' : State}
    {g' : List Nat} (hinv : Inv s)
    (hred : reducer now g s .RESET_BET = some (s', g')) : Inv s' := by
  simp only [reducer, normalize_of_inv hinv] at hred
  by_cases hph : s.phase = .LOBBY
  · rw [if_neg (not_not_intro hph)] at hred
    have he := congrArg Prod.fst (Option.some.inj hred)
    subst he
    refine inv_pushLog2 ?_ now _ _
    refine inv_setBet_lobby hinv hph ?_ ?_ ?_ ?_ ?_ ?_ ?_
    · rfl
    · rfl
    · rfl
    · rfl
    · rfl
    · show (0 : Int) ≤ 0
      decide
    · show (0 : Int) ≤ 50
      decide
  · rw [if_pos hph] at hred
    have he := congrArg Prod.fst (Option.some.inj hred)
    subst he
    exact hinv

/-- BET_ADD preserves the invariant (`clampBet` keeps the bet in [0, 50]). -/
theorem inv_step_betAdd {now : Nat} {g : List Nat} {s s' : State}
    {g' : List Nat} (inc : Int) (hinv : Inv s)
    (hred : reducer now g s (.BET_ADD inc) = some (s', g')) : Inv s' := by
  simp only [reducer, normalize_of_inv hinv] at hred
  by_cases hph : s.phase = .LOBBY
  · rw [if_neg (not_not_intro hph)] at hred
    have he := congrArg Prod.fst (Option.some.inj hred)
    subst he
    refine inv_pushLog2 ?_ now _ _
    refine inv_setBet_lobby hinv hph ?_ ?_ ?_ ?_ ?_ ?_ ?_
    · rfl
    · rfl
    · rfl
    · rfl
    · rfl
    · exact (clampBet_bounds _).1
    · exact (clampBet_bounds _).2
  · rw [if_pos hph] at hred
    have he := congrArg Prod.fst (Option.some.inj hred)
    subst he
    exact hinv

/-- BET_PLACE_CTA preserves the invariant. -/
theorem inv_step_betCta {now : Nat} {g : List Nat} {s s' : State}
    {g' : List Nat} (hinv : Inv s)
    (hred : reducer now g s .BET_PLACE_CTA = some (s', g')) : Inv s' := by
  simp only [reducer, normalize_of_inv hinv] at hred
  by_cases hph : s.phase = .LOBBY
  · rw [if_neg (not_not_intro hph)] at hred
    have he := congrArg Prod.fst (Option.some.inj hred)
    subst he
    have hb : (0 : Int) ≤ (if 0 < s.bet then s.bet else 10) ∧
        (if 0 < s.bet then s.bet else 10 : Int) ≤ 50 := by
      split_ifs
      · exact ⟨hinv.betLo, hinv.betHi⟩
      · exact ⟨by omega, by omega⟩
    refine inv_pushLog2 ?_ now _ _
    refine inv_setBet_lobby hinv hph ?_ ?_ ?_ ?_ ?_ ?_ ?_
    · rfl
    · rfl
    · rfl
    · rfl
    · rfl
    · exact hb.1
    · exact hb.2
  · rw [if_pos hph] at hred
    have he := congrArg Prod.fst (Option.some.inj hred)
    subst he
    exact hinv

/-- STAND preserves the invariant (phase PLAYER to DEALER keeps bet within
    bankroll). -/
theorem inv_step_stand {now : Nat} {g : List Nat} {s s' : State}
    {g' : List Nat} (hinv : Inv s)
    (hred : reducer now g s .STAND = some (s', g')) : Inv s' := by
  simp only [reducer, normalize_of_inv hinv] at hred
  by_cases hph : s.phase = .PLAYER
  · rw [if_neg (not_not_intro hph)] at hred
    have he := congrArg Prod.fst (Option.some.inj hred)
    subst he
    refine inv_pushLog2 ⟨?_, ?_, ?_, ?_, ?_, ?_, ?_⟩ now _ _
    · show (idsOf s.deck ++ idsOf s.playerHand ++ idsOf s.dealerHand).Nodup
      exact hinv.nodup
    · show ∀ c ∈ s.deck ++ s.playerHand ++ s.dealerHand, c ∈ buildDeck
      exact hinv.canon
    · show 0 ≤ s.bet
      exact hinv.betLo
    · show s.bet ≤ 50
      exact hinv.betHi
    · show 0 ≤ s.bankroll
      exact hinv.bank
    · intro _
      show s.bet ≤ s.bankroll
      exact hinv.betBank (Or.inl hph)
    · intro h
      have h2 : Phase.DEALER = Phase.LOBBY := h
      exact Phase.noConfusion h2
  · rw [if_pos hph] at hred
    have he := congrArg Prod.fst (Option.some.inj hred)
    subst he
    exact hinv

/-- NEXT_HAND preserves the invariant (hands cleared, bet reset; the deck is
    kept as is). -/
theorem inv_step_nextHand {now : Nat} {g : List Nat} {s s' : State}
    {g' : List Nat} (hinv : Inv s)
    (hred : reducer now g s .NEXT_HAND = some (s', g')) : Inv s' := by
  simp only [reducer, normalize_of_inv hinv] at hred
  by_cases hph : s.phase = .DONE
  · rw [if_neg (not_not_intro hph)] at hred
    have he := congrArg Prod.fst (Option.some.inj hred)
    subst he
    rcases (nodup3_iff _ _ _).mp hinv.nodup with ⟨hn1, -, -, -, -, -⟩
    refine inv_pushLog2 ⟨?_, ?_, ?_, ?_, ?_, ?_, ?_⟩ now _ _
    · show (idsOf s.deck ++ idsOf ([] : List Card) ++
        idsOf ([] : List Card)).Nodup
      simp only [idsOf_nil, List.append_nil]
      exact hn1
    · show ∀ c ∈ s.deck ++ ([] : List Card) ++ ([] : List Card), c ∈ buildDeck
      simp only [List.append_nil]
      intro c hc
      exact hinv.canon c (by simp [hc])
    · show (0 : Int) ≤ 0
      decide
    · show (0 : Int) ≤ 50
      decide
    · show 0 ≤ s.bankroll
      exact hinv.bank
    · intro h
      rcases h with h | h
      · have h2 : Phase.LOBBY = Phase.PLAYER := h
        exact Phase.noConfusion h2
      · have h2 : Phase.LOBBY = Phase.DEALER := h
        exact Phase.noConfusion h2
    · intro _
      exact ⟨rfl, rfl⟩
  · rw [if_pos hph] at hred
    have he := congrArg Prod.fst (Option.some.inj hred)
    subst he
    exact hinv


/-- RESET_RUN preserves the invariant (full reset to a fresh initial state). -/
theorem inv_step_resetRun {now : Nat} {g : List Nat} {s s' : State}
    {g' : List Nat} (hinv : Inv s)
    (hred : reducer now g s .RESET_RUN = some (s', g')) : Inv s' := by
  simp only [reducer, normalize_of_inv hinv] at hred
  have he := congrArg Prod.fst (Option.some.inj hred)
  subst he
  refine inv_pushLog2 ⟨?_, ?_, ?_, ?_, ?_, ?_, ?_⟩ now _ _
  · simp only [idsAll, idsOf_nil, List.append_nil]
    exact freshDeck_nodup _
  · simp only [List.append_nil]
    intro c hc
    exact freshDeck_mem.mp hc
  · show (0 : Int) ≤ 0
    decide
  · show (0 : Int) ≤ 50
    decide
  · show (0 : Int) ≤ 10000
    decide
  · intro h
    rcases h with h | h
    · have h2 : Phase.LOBBY = Phase.PLAYER := h
      exact Phase.noConfusion h2
    · have h2 : Phase.LOBBY = Phase.DEALER := h
      exact Phase.noConfusion h2
  · intro _
    exact ⟨rfl, rfl⟩

/-- SHUFFLE preserves the invariant (the rebuilt deck excludes in-play ids). -/
theorem inv_step_shuffle {now : Nat} {g : List Nat} {s s' : State}
    {g' : List Nat} (hinv : Inv s)
    (hred : reducer now g s .SHUFFLE = some (s', g')) : Inv s' := by
  simp only [reducer, normalize_of_inv hinv] at hred
  have he := congrArg Prod.fst (Option.some.inj hred)
  subst he
  rcases (nodup3_iff _ _ _).mp hinv.nodup with ⟨-, hn2, hn3, -, -, h23⟩
  have key : (idsOf (regenDeck (cryptoSeed32 g).2
      (idsOf s.playerHand ++ idsOf s.dealerHand)).1 ++
      idsOf s.playerHand ++ idsOf s.dealerHand).Nodup := by
    refine (nodup3_iff _ _ _).mpr ⟨regen_nodup _ _, hn2, hn3, ?_, ?_, h23⟩
    · intro x hx h
      exact (regen_clean _ _ x hx) (List.mem_append.mpr (Or.inl h))
    · intro x hx h
      exact (regen_clean _ _ x hx) (List.mem_append.mpr (Or.inr h))
  refine inv_pushLog2 ⟨?_, ?_, ?_, ?_, ?_, ?_, ?_⟩ now _ _
  · exact key
  · intro c hc
    rcases List.mem_append.mp hc with h | h
    · rcases List.mem_append.mp h with h2 | h2
      · exact (regen_mem.mp h2).1
      · exact hinv.canon c (by simp [h2])
    · exact hinv.canon c (by simp [h])
  · exact hinv.betLo
  · exact hinv.betHi
  · exact hinv.bank
  · intro h
    rcases h with h | h
    · exact hinv.betBank (Or.inl h)
    · exact hinv.betBank (Or.inr h)
  · intro h
    exact hinv.lobbyHands h

/-- DEALER_PLAY preserves the invariant. -/
theorem inv_step_dealerPlay {now : Nat} {g : List Nat} {s s' : State}
    {g' : List Nat} (hinv : Inv s)
    (hred : reducer now g s .DEALER_PLAY = some (s', g')) : Inv s' := by
  simp only [reducer, normalize_of_inv hinv] at hred
  by_cases hph : s.phase = .DEALER
  · rw [if_neg (not_not_intro hph)] at hred
    obtain ⟨hn, hc, -⟩ := dealerPlay_inv hred hinv.nodup hinv.canon
    obtain ⟨hphase, -, hbet, -, -, -, hbank3, -⟩ := dealerPlay_weak hred
    refine ⟨hn, hc, ?_, ?_, ?_, ?_, ?_⟩
    · rw [hbet]
      exact hinv.betLo
    · rw [hbet]
      exact hinv.betHi
    · have hbb := hinv.betBank (Or.inr hph)
      have h0 := hinv.bank
      have h0b := hinv.betLo
      rcases hbank3 with h | h | h <;> rw [h] <;> omega
    · rw [hphase]
      intro h
      rcases h with h | h <;> exact absurd h (by decide)
    · rw [hphase]
      intro h
      exact absurd h (by decide)
  · rw [if_pos hph] at hred
    have he := congrArg Prod.fst (Option.some.inj hred)
    subst he
    exact hinv


/-- DRAW preserves the invariant. -/
theorem inv_step_draw {now : Nat} {g : List Nat} {s s' : State}
    {g' : List Nat} (n : Nat) (hinv : Inv s)
    (hred : reducer now g s (.DRAW n) = some (s', g')) : Inv s' := by
  simp only [reducer, normalize_of_inv hinv] at hred
  by_cases hph : s.phase = .PLAYER
  · rw [if_neg (not_not_intro hph)] at hred
    by_cases hib : s.playerInitialBust
    · rw [if_pos hib] at hred
      have he := congrArg Prod.fst (Option.some.inj hred)
      subst he
      refine inv_pushLog2 ?_ now _ _
      exact inv_sameFields hinv rfl rfl rfl rfl rfl rfl
    · rw [if_neg hib] at hred
      by_cases hbust : BUST < handTotal s.playerHand
      · rw [if_pos hbust] at hred
        have he := congrArg Prod.fst (Option.some.inj hred)
        subst he
        exact hinv
      · rw [if_neg hbust] at hred
        rcases (nodup3_iff _ _ _).mp hinv.nodup with
          ⟨hn1, hn2, hn3, h12, h13, h23⟩
        have hdclean : ∀ x ∈ idsOf s.deck,
            x ∉ idsOf s.playerHand ++ idsOf s.dealerHand := by
          intro x hx
          rw [List.mem_append]
          rintro (h | h)
          · exact h12 hx h
          · exact h13 hx h
        have hdcanon : ∀ c ∈ s.deck, c ∈ buildDeck := fun c hc =>
          hinv.canon c (by simp [hc])
        rcases htu : takeUnique g s.deck n
            (idsOf s.playerHand ++ idsOf s.dealerHand) with _ |
            ⟨taken, rest, gt⟩
        · rw [htu] at hred
          exact Option.noConfusion hred
        · rw [htu] at hred
          dsimp only at hred
          obtain ⟨hlen, hnodtr, hdisjtr, hcant, hcanr⟩ :=
            takeUnique_strong htu hn1 hdclean hdcanon
          have hPD : (idsOf s.playerHand ++ idsOf s.dealerHand).Nodup :=
            List.nodup_append.mpr ⟨hn2, hn3, h23⟩
          have hshuf := (nodup_shuffle4 _ _ _ _ hnodtr hPD hdisjtr).2
          have hnodNew : (idsOf rest ++ idsOf (s.playerHand ++ taken) ++
              idsOf s.dealerHand).Nodup := by
            rw [ids_append]
            exact hshuf
          have hcanNew : ∀ c ∈ rest ++ (s.playerHand ++ taken) ++
              s.dealerHand, c ∈ buildDeck := by
            intro c hc
            rcases List.mem_append.mp hc with h | h
            · rcases List.mem_append.mp h with h2 | h2
              · exact hcanr c h2
              · rcases List.mem_append.mp h2 with h3 | h3
                · exact hinv.canon c (by simp [h3])
                · exact hcant c h3
            · exact hinv.canon c (by simp [h])
          by_cases hb2 : BUST < handTotal (s.playerHand ++ taken)
          · rw [if_pos hb2] at hred
            have he := congrArg Prod.fst (Option.some.inj hred)
            subst he
            refine inv_pushLog2 ⟨?_, ?_, ?_, ?_, ?_, ?_, ?_⟩ now _ _
            · exact hnodNew
            · exact hcanNew
            · exact hinv.betLo
            · exact hinv.betHi
            · have hbb := hinv.betBank (Or.inl hph)
              have h0b := hinv.betLo
              show 0 ≤ s.bankroll - s.bet
              omega
            · intro h
              rcases h with h | h
              · have h2 : Phase.DONE = Phase.PLAYER := h
                exact Phase.noConfusion h2
              · have h2 : Phase.DONE = Phase.DEALER := h
                exact Phase.noConfusion h2
            · intro h
              have h2 : Phase.DONE = Phase.LOBBY := h
              exact Phase.noConfusion h2
          · rw [if_neg hb2] at hred
            have he := congrArg Prod.fst (Option.some.inj hred)
            subst he
            refine inv_pushLog2 ⟨?_, ?_, ?_, ?_, ?_, ?_, ?_⟩ now _ _
            · exact hnodNew
            · exact hcanNew
            · exact hinv.betLo
            · exact hinv.betHi
            · exact hinv.bank
            · intro _
              exact hinv.betBank (Or.inl hph)
            · intro h
              have h2 : s.phase = Phase.LOBBY := h
              rw [hph] at h2
              exact Phase.noConfusion h2
  · rw [if_pos hph] at hred
    have he := congrArg Prod.fst (Option.some.inj hred)
    subst he
    exact hinv

/-- START preserves the invariant (both guards and the 4-card deal). -/
theorem inv_step_start {now : Nat} {g : List Nat} {s s' : State}
    {g' : List Nat} (hinv : Inv s)
    (hred : reducer now g s .START = some (s', g')) : Inv s' := by
  simp only [reducer, normalize_of_inv hinv] at hred
  by_cases hph : s.phase = .LOBBY
  · rw [if_neg (not_not_intro hph)] at hred
    by_cases hb0 : s.bet ≤ 0
    · rw [if_pos hb0] at hred
      have he := congrArg Prod.fst (Option.some.inj hred)
      subst he
      refine inv_pushLog2 ?_ now _ _
      exact inv_sameFields hinv rfl rfl rfl rfl rfl rfl
    · rw [if_neg hb0] at hred
      by_cases hbb : s.bankroll < s.bet
      · rw [if_pos hbb] at hred
        have he := congrArg Prod.fst (Option.some.inj hred)
        subst he
        refine inv_pushLog2 ?_ now _ _
        exact inv_sameFields hinv rfl rfl rfl rfl rfl rfl
      · rw [if_neg hbb] at hred
        rcases (nodup3_iff _ _ _).mp hinv.nodup with ⟨hn1, -, -, -, -, -⟩
        have hdcanon : ∀ c ∈ s.deck, c ∈ buildDeck := fun c hc =>
          hinv.canon c (by simp [hc])
        rcases htu : takeUnique g s.deck 4 [] with _ | ⟨taken, rest, gt⟩
        · rw [htu] at hred
          exact Option.noConfusion hred
        · rw [htu] at hred
          dsimp only at hred
          obtain ⟨hlen, hnodtr, -, hcant, hcanr⟩ :=
            takeUnique_strong htu hn1 (by simp) hdcanon
          rcases taken with _ | ⟨c0, t1⟩
          · simp only [List.length_nil] at hlen
            omega
          rcases t1 with _ | ⟨c1, t2⟩
          · simp only [List.length_cons, List.length_nil] at hlen
            omega
          rcases t2 with _ | ⟨c2, t3⟩
          · simp only [List.length_cons, List.length_nil] at hlen
            omega
          rcases t3 with _ | ⟨c3, t4⟩
          · simp only [List.length_cons, List.length_nil] at hlen
            omega
          rcases t4 with _ | ⟨c4, t5⟩
          · have he := congrArg Prod.fst (Option.some.inj hred)
            subst he
            have hids : (c0.id :: c1.id :: c2.id :: c3.id ::
                idsOf rest).Nodup := by
              simpa only [ids_cons, idsOf_nil, List.cons_append,
                List.nil_append] using hnodtr
            have hnd : (idsOf rest ++ [c0.id, c2.id] ++
                [c1.id, c3.id]).Nodup := nodup_deal _ _ _ _ _ hids
            refine inv_pushLog2 ⟨?_, ?_, ?_, ?_, ?_, ?_, ?_⟩ now _ _
            · exact hnd
            · intro c hc
              rcases List.mem_append.mp hc with h | h
              · rcases List.mem_append.mp h with h2 | h2
                · exact hcanr c h2
                · have h3 : c = c0 ∨ c = c2 := by
                    have h4 : c ∈ [c0, c2] := h2
                    simpa using h4
                  rcases h3 with rfl | rfl
                  · exact hcant c (by simp)
                  · exact hcant c (by simp)
              · have h3 : c = c1 ∨ c = c3 := by
                  have h4 : c ∈ [c1, c3] := h
                  simpa using h4
                rcases h3 with rfl | rfl
                · exact hcant c (by simp)
                · exact hcant c (by simp)
            · exact hinv.betLo
            · exact hinv.betHi
            · exact hinv.bank
            · intro _
              show s.bet ≤ s.bankroll
              omega
            · intro h
              have h2 : Phase.PLAYER = Phase.LOBBY := h
              exact Phase.noConfusion h2
          · simp only [List.length_cons] at hlen
            omega
  · rw [if_pos hph] at hred
    have he := congrArg Prod.fst (Option.some.inj hred)
    subst he
    exact hinv

/-- The reducer preserves the invariant: one step from an invariant state
    lands in an invariant state. -/
theorem inv_step {now : Nat} {g : List Nat} {s s' : State} {g' : List Nat}
    (hinv : Inv s) (a : Action)
    (hred : reducer now g s a = some (s', g')) : Inv s' := by
  cases a with
  | RESET_RUN => exact inv_step_resetRun hinv hred
  | SHUFFLE => exact inv_step_shuffle hinv hred
  | TOGGLE_LOG => exact inv_step_toggle hinv hred
  | RESET_BET => exact inv_step_resetBet hinv hred
  | BET_ADD inc => exact inv_step_betAdd inc hinv hred
  | BET_PLACE_CTA => exact inv_step_betCta hinv hred
  | START => exact inv_step_start hinv hred
  | DRAW n => exact inv_step_draw n hinv hred
  | STAND => exact inv_step_stand hinv hred
  | DEALER_PLAY => exact inv_step_dealerPlay hinv hred
  | NEXT_HAND => exact inv_step_nextHand hinv hred

/-- Every reachable state satisfies the invariant. -/
theorem reachable_inv {s : State} (h : Reachable s) : Inv s := by
  induction h with
  | init g => exact inv_init g
  | step a now g hr hred ih => exact inv_step ih a hred


/-! ### The concrete witness run is reachable -/

theorem reach_rs0 : Reachable rs0 := Reachable.init oracleA

set_option maxRecDepth 1000000 in
theorem step_rs1 : reducer 0 [] rs0 (.BET_ADD 10) = some (rs1, []) := by rfl

theorem reach_rs1 : Reachable rs1 :=
  Reachable.step (.BET_ADD 10) 0 [] reach_rs0 step_rs1

set_option maxRecDepth 1000000 in
theorem step_rs2 : reducer 0 [] rs1 .START = some (rs2, []) := by rfl

theorem reach_rs2 : Reachable rs2 :=
  Reachable.step .START 0 [] reach_rs1 step_rs2

set_option maxRecDepth 1000000 in
theorem step_rs3 : reducer 0 [] rs2 .STAND = some (rs3, []) := by rfl

theorem reach_rs3 : Reachable rs3 :=
  Reachable.step .STAND 0 [] reach_rs2 step_rs3

set_option maxRecDepth 1000000 in
theorem step_rs4 : reducer 0 [] rs3 .DEALER_PLAY = some (rs4, []) := by rfl

theorem reach_rs4 : Reachable rs4 :=
  Reachable.step .DEALER_PLAY 0 [] reach_rs3 step_rs4

set_option maxRecDepth 1000000 in
theorem step_rs5 : reducer 0 [] rs4 .NEXT_HAND = some (rs5, []) := by rfl

theorem reach_rs5 : Reachable rs5 :=
  Reachable.step .NEXT_HAND 0 [] reach_rs4 step_rs5


/-! ### Claim theorems -/

/-- C2: in a DEALER-phase state with a dealt-bust player, DEALER_PLAY
    resolves by the dealer's final total alone: dealer bust pays `+bet`,
    anything else costs `-bet` (the player's own total is never consulted). -/
theorem C2_dealt_bust_resolution (now : Nat) (g : List Nat) (s s' : State)
    (g2 : List Nat) (hph : s.phase = .DEALER)
    (hib : s.playerInitialBust = true)
    (hred : reducer now g s .DEALER_PLAY = some (s', g2)) :
    (BUST < handTotal s'.dealerHand → s'.bankroll = s.bankroll + s.bet) ∧
    (¬BUST < handTotal s'.dealerHand → s'.bankroll = s.bankroll - s.bet) := by
  simp only [reducer] at hred
  obtain ⟨hf1, hf2, hf3, hf4, -, -, -, -⟩ := normalize_fields g s
  rw [if_neg (not_not_intro (hf1.trans hph))] at hred
  obtain ⟨-, -, -, -, -, -, -, hres⟩ := dealerPlay_weak hred
  obtain ⟨hwin, hloss⟩ := hres (hf4.trans hib)
  constructor
  · intro hb
    rw [hwin hb, hf3, hf2]
  · intro hb
    rw [hloss hb, hf3, hf2]

set_option maxRecDepth 1000000 in
/-- C2 witness: `stB` (DEALER phase, dealt-bust player 22.03, dealer standing
    at 19.06, bet 10, bankroll 100) resolves to bankroll 90. -/
theorem C2_witness :
    stB.phase = .DEALER ∧ stB.playerInitialBust = true ∧
    reducer 0 [] stB .DEALER_PLAY = some (stBout, []) ∧
    ((BUST < handTotal stBout.dealerHand →
        stBout.bankroll = stB.bankroll + stB.bet) ∧
      (¬BUST < handTotal stBout.dealerHand →
        stBout.bankroll = stB.bankroll - stB.bet)) :=
  ⟨rfl, rfl, by rfl,
    C2_dealt_bust_resolution 0 [] stB stBout [] rfl rfl (by rfl)⟩

/-- C3 (amended): STAND on a PLAYER-phase state moves the phase to DEALER in
    its own transition (not to DONE); the dealer is resolved by the
    reactively auto-dispatched DEALER_PLAY, and the composition of the two
    dispatches lands in DONE. -/
theorem C3_stand_then_auto (now : Nat) (g : List Nat) (s : State)
    (hph : s.phase = .PLAYER) :
    (∀ s' g2, reducer now g s .STAND = some (s', g2) →
      s'.phase = .DEALER) ∧
    (∀ s' g2, standAuto now g s = some (s', g2) → s'.phase = .DONE) := by
  have hf := (normalize_fields g s).1
  constructor
  · intro s' g2 hred
    simp only [reducer] at hred
    rw [if_neg (not_not_intro (hf.trans hph))] at hred
    have he := congrArg Prod.fst (Option.some.inj hred)
    subst he
    rfl
  · intro s' g2 hauto
    simp only [standAuto] at hauto
    rcases hst : reducer now g s .STAND with _ | ⟨s1, g1⟩
    · rw [hst] at hauto
      exact Option.noConfusion hauto
    · rw [hst] at hauto
      dsimp only at hauto
      have hs1 : s1.phase = .DEALER := by
        simp only [reducer] at hst
        rw [if_neg (not_not_intro (hf.trans hph))] at hst
        have he := congrArg Prod.fst (Option.some.inj hst)
        subst he
        rfl
      simp only [reducer] at hauto
      have hf2 := (normalize_fields g1 s1).1
      rw [if_neg (not_not_intro (hf2.trans hs1))] at hauto
      exact (dealerPlay_weak hauto).1

set_option maxRecDepth 1000000 in
/-- C3 counterexample to the original claim: STAND alone on the PLAYER-phase
    state `stP` yields phase DEALER, not DONE. -/
theorem C3_counterexample :
    stP.phase = .PLAYER ∧ reducer 0 [] stP .STAND = some (stPstand, []) ∧
    stPstand.phase = .DEALER ∧ stPstand.phase ≠ .DONE :=
  ⟨rfl, by rfl, by rfl, by decide⟩

set_option maxRecDepth 1000000 in
/-- C3 witness: the STAND of `stP` composed with the auto-dispatched
    DEALER_PLAY ends in DONE. -/
theorem C3_witness : stP.phase = .PLAYER ∧ stPauto.phase = .DONE :=
  ⟨rfl, (C3_stand_then_auto 0 [] stP rfl).2 stPauto [] (by rfl)⟩

/-- C5: whenever at most `77 - |inPlay ∩ canonical|` cards are requested,
    `takeUnique` terminates with exactly `n` cards, pairwise distinct by id
    and disjoint from `inPlay`, for every input deck. -/
theorem C5_takeUnique_total (g : List Nat) (deck : List Card) (n : Nat)
    (inPlay : List String) (hn : n ≤ 77 - interCount inPlay) :
    ∃ t r g2, takeUnique g deck n inPlay = some (t, r, g2) ∧
      t.length = n ∧ (idsOf t).Nodup ∧ ∀ c ∈ t, c.id ∉ inPlay := by
  have h77 := availCount_add_interCount inPlay
  have hn2 : n ≤ availCount inPlay := by omega
  have hs := takeUnique_isSome g deck n inPlay hn2
  rcases ht : takeUnique g deck n inPlay with _ | ⟨t, r, g2⟩
  · rw [ht] at hs
    exact absurd hs (by simp)
  · obtain ⟨h1, h2, h3⟩ := takeUnique_sound ht
    exact ⟨t, r, g2, rfl, h1, h2, h3⟩

set_option maxRecDepth 1000000 in
/-- C5 witness: a 4-card deal from the canonical deck with nothing in play. -/
theorem C5_witness :
    4 ≤ 77 - interCount ([] : List String) ∧
    ∃ t r g2, takeUnique [] buildDeck 4 [] = some (t, r, g2) ∧
      t.length = 4 ∧ (idsOf t).Nodup ∧
      ∀ c ∈ t, c.id ∉ ([] : List String) :=
  ⟨by decide, C5_takeUnique_total [] buildDeck 4 [] (by decide)⟩

/-- C8: hand totals are the scaled-integer-rounded sums claimed by the spec
    (every score is an exact centi-multiple: `cardScore c` is
    `(100*value + rank)/100` and `handTotal h` is `centi h / 100`), and the
    canonical deck's Spade-11 and Star-1 score 11.01 and 1.07. -/
theorem C8_score_rounding :
    (∀ h : List Card, handTotal h = (centi h : ℚ) / 100) ∧
    (∀ c : Card, cardScore c = ((100 * c.value + c.rank : ℕ) : ℚ) / 100) ∧
    mkCard .Spade 11 ∈ buildDeck ∧ (mkCard .Spade 11).id = "Spade-11" ∧
    cardScore (mkCard .Spade 11) = 1101 / 100 ∧
    mkCard .Star 1 ∈ buildDeck ∧ (mkCard .Star 1).id = "Star-1" ∧
    cardScore (mkCard .Star 1) = 107 / 100 := by
  refine ⟨handTotal_centi, cardScore_centi, by decide, by decide, ?_,
    by decide, by decide, ?_⟩
  · rw [cardScore_centi]
    norm_num [mkCard, SUIT_RANK]
  · rw [cardScore_centi]
    norm_num [mkCard, SUIT_RANK]

/-- C9: `normalize` returns the identical state on any state with
    duplicate-free hands and a duplicate-free deck disjoint from both hands,
    and is idempotent on every state. -/
theorem C9_normalize_idempotent (g : List Nat) (s : State)
    (hp : (idsOf s.playerHand).Nodup) (hd : (idsOf s.dealerHand).Nodup)
    (hdeck : (idsOf s.deck).Nodup)
    (hdisj : ∀ x ∈ idsOf s.deck,
      x ∉ idsOf s.playerHand ∧ x ∉ idsOf s.dealerHand) :
    normalize g s = (s, g) ∧
    ∀ (g1 g2 : List Nat) (s0 : State),
      normalize g2 (normalize g1 s0).1 = ((normalize g1 s0).1, g2) :=
  ⟨normalize_eq_self g hp hd hdeck hdisj,
    fun g1 g2 s0 => normalize_idem g1 g2 s0⟩

/-- C9 witness: `stEmpty` is returned unchanged by `normalize`. -/
theorem C9_witness :
    ((idsOf stEmpty.playerHand).Nodup ∧ (idsOf stEmpty.dealerHand).Nodup ∧
      (idsOf stEmpty.deck).Nodup ∧
      ∀ x ∈ idsOf stEmpty.deck,
        x ∉ idsOf stEmpty.playerHand ∧ x ∉ idsOf stEmpty.dealerHand) ∧
    normalize [] stEmpty = (stEmpty, []) :=
  ⟨⟨by decide, by decide, by decide, by decide⟩,
    (C9_normalize_idempotent [] stEmpty (by decide) (by decide) (by decide)
      (by decide)).1⟩


/-- C1 (amended): every reachable state's deck ∪ playerHand ∪ dealerHand
    holds pairwise-distinct canonical ids — but not necessarily all 77:
    NEXT_HAND clears the hands without returning their cards to the deck. -/
theorem C1_ids_unique_canonical (s : State) (h : Reachable s) :
    (idsAll s).Nodup ∧ ∀ x ∈ idsAll s, x ∈ canonIds := by
  have hinv := reachable_inv h
  refine ⟨hinv.nodup, ?_⟩
  intro x hx
  have hx2 : x ∈ idsOf s.deck ++ idsOf s.playerHand ++ idsOf s.dealerHand :=
    hx
  rcases List.mem_append.mp hx2 with h1 | h1
  · rcases List.mem_append.mp h1 with h2 | h2
    · rcases mem_idsOf.mp h2 with ⟨c, hc, rfl⟩
      exact mem_canonIds (hinv.canon c (by simp [hc]))
    · rcases mem_idsOf.mp h2 with ⟨c, hc, rfl⟩
      exact mem_canonIds (hinv.canon c (by simp [hc]))
  · rcases mem_idsOf.mp h1 with ⟨c, hc, rfl⟩
    exact mem_canonIds (hinv.canon c (by simp [hc]))

set_option maxRecDepth 1000000 in
/-- C1 counterexample to the original claim: after the reachable run
    BET_ADD, START, STAND, DEALER_PLAY, NEXT_HAND, only 73 of the 77
    canonical ids remain in deck ∪ playerHand ∪ dealerHand (the four dealt
    cards are lost). -/
theorem C1_counterexample :
    Reachable rs5 ∧ (idsAll rs5).length = 73 ∧ canonIds.length = 77 :=
  ⟨reach_rs5, by decide, by decide⟩

/-- C1 witness: the initial state holds distinct canonical ids. -/
theorem C1_witness :
    Reachable rs0 ∧ ((idsAll rs0).Nodup ∧ ∀ x ∈ idsAll rs0, x ∈ canonIds) :=
  ⟨reach_rs0, C1_ids_unique_canonical rs0 reach_rs0⟩

/-- C4 (amended): START without a bet, START with bet over bankroll, and
    DRAW after a dealt bust reject the transition — same state except the
    message plus one "_BLOCKED" audit entry — but a bet action submitted
    outside LOBBY is a silent no-op: the state (message and log included) is
    returned unchanged, with no "_BLOCKED" entry. -/
theorem C4_blocked_actions (now : Nat) (g : List Nat) (s : State)
    (hinv : Inv s) :
    (s.phase = .LOBBY → s.bet ≤ 0 → ∀ s' g2,
      reducer now g s .START = some (s', g2) →
      sameCore s' s ∧ appendsEntry s s' "START_BLOCKED") ∧
    (s.phase = .LOBBY → 0 < s.bet → s.bankroll < s.bet → ∀ s' g2,
      reducer now g s .START = some (s', g2) →
      sameCore s' s ∧ appendsEntry s s' "START_BLOCKED") ∧
    (s.phase = .PLAYER → s.playerInitialBust = true → ∀ n s' g2,
      reducer now g s (.DRAW n) = some (s', g2) →
      sameCore s' s ∧ appendsEntry s s' "DRAW_BLOCKED") ∧
    (s.phase ≠ .LOBBY → ∀ inc,
      reducer now g s (.BET_ADD inc) = some (s, g)) := by
  refine ⟨?_, ?_, ?_, ?_⟩
  · intro hph hb0 s' g2 hred
    simp only [reducer, normalize_of_inv hinv] at hred
    rw [if_neg (not_not_intro hph), if_pos hb0] at hred
    have he := congrArg Prod.fst (Option.some.inj hred)
    subst he
    refine ⟨⟨rfl, rfl, rfl, rfl, rfl, rfl, rfl, rfl, rfl⟩, ?_, ?_⟩
    · exact (pushLog_log now _ _ _).1
    · exact ⟨_, (pushLog_log now _ _ _).2, rfl⟩
  · intro hph hbpos hbb s' g2 hred
    simp only [reducer, normalize_of_inv hinv] at hred
    rw [if_neg (not_not_intro hph), if_neg (not_le.mpr hbpos),
      if_pos hbb] at hred
    have he := congrArg Prod.fst (Option.some.inj hred)
    subst he
    refine ⟨⟨rfl, rfl, rfl, rfl, rfl, rfl, rfl, rfl, rfl⟩, ?_, ?_⟩
    · exact (pushLog_log now _ _ _).1
    · exact ⟨_, (pushLog_log now _ _ _).2, rfl⟩
  · intro hph hib n s' g2 hred
    simp only [reducer, normalize_of_inv hinv] at hred
    rw [if_neg (not_not_intro hph), if_pos hib] at hred
    have he := congrArg Prod.fst (Option.some.inj hred)
    subst he
    refine ⟨⟨rfl, rfl, rfl, rfl, rfl, rfl, rfl, rfl, rfl⟩, ?_, ?_⟩
    · exact (pushLog_log now _ _ _).1
    · exact ⟨_, (pushLog_log now _ _ _).2, rfl⟩
  · intro hph inc
    simp only [reducer, normalize_of_inv hinv]
    rw [if_pos hph]

set_option maxRecDepth 1000000 in
/-- C4 counterexample to the original claim: BET_ADD outside LOBBY (here on
    the PLAYER-phase state `stP`) returns the state exactly unchanged — no
    message update and no "_BLOCKED" audit entry (the log stays empty). -/
theorem C4_counterexample :
    stP.phase ≠ .LOBBY ∧ reducer 0 [] stP (.BET_ADD 10) = some (stP, []) ∧
    stP.log = [] ∧ stP.message = "x" :=
  ⟨by decide, by rfl, rfl, rfl⟩

set_option maxRecDepth 1000000 in
/-- C4 witness: START with no bet on the reachable initial state is blocked
    with a START_BLOCKED entry and otherwise unchanged core fields. -/
theorem C4_witness :
    (rs0.phase = .LOBBY ∧ rs0.bet ≤ 0) ∧
    sameCore rsStartBlocked rs0 ∧
    appendsEntry rs0 rsStartBlocked "START_BLOCKED" :=
  ⟨⟨rfl, by decide⟩,
    (C4_blocked_actions 0 [] rs0 (inv_init oracleA)).1 rfl (by decide)
      rsStartBlocked [] (by rfl)⟩

/-- C6: for a reachable DEALER-phase state, DEALER_PLAY ends with the dealer
    at 17.00 or more (hence "> 21 or ≥ 17"), and the draw loop never draws
    once the dealer total has reached DEALER_STAND (it returns immediately
    whatever the remaining fuel, so the 50-draw cap is not what stops it). -/
theorem C6_dealer_stand_rule (now : Nat) (g : List Nat) (s s' : State)
    (g2 : List Nat) (h : Reachable s) (hph : s.phase = .DEALER)
    (hred : reducer now g s .DEALER_PLAY = some (s', g2)) :
    (BUST < handTotal s'.dealerHand ∨
      DEALER_STAND ≤ handTotal s'.dealerHand) ∧
    DEALER_STAND ≤ handTotal s'.dealerHand ∧
    ∀ (ph : List Card) (fuel : Nat) (gl : List Nat) (deckl dh : List Card)
      (draws : Nat), DEALER_STAND ≤ handTotal dh →
      dealerLoop ph (fuel + 1) gl deckl dh draws = some (dh, deckl, gl) := by
  have hinv := reachable_inv h
  simp only [reducer, normalize_of_inv hinv] at hred
  rw [if_neg (not_not_intro hph)] at hred
  obtain ⟨-, -, hT⟩ := dealerPlay_inv hred hinv.nodup hinv.canon
  have h17 : DEALER_STAND ≤ handTotal s'.dealerHand := by
    have h2 := (le_handTotal_iff s'.dealerHand 17).mpr (by omega)
    simpa [DEALER_STAND] using h2
  refine ⟨Or.inr h17, h17, ?_⟩
  intro ph fuel gl deckl dh draws hdh
  simp only [dealerLoop]
  rw [if_neg (not_lt.mpr hdh)]

set_option maxRecDepth 1000000 in
/-- C6 witness: the reachable DEALER state `rs3` (dealer dealt 17.02)
    resolves with the dealer standing at 17.02 ≥ 17. -/
theorem C6_witness :
    Reachable rs3 ∧ rs3.phase = .DEALER ∧
    DEALER_STAND ≤ handTotal rs4.dealerHand :=
  ⟨reach_rs3, by decide,
    (C6_dealer_stand_rule 0 [] rs3 rs4 [] reach_rs3 (by decide)
      step_rs4).2.1⟩

/-- C7: reachable states keep the bet in [0, 50]; outside LOBBY no action
    except RESET_RUN and NEXT_HAND changes the bet; and Scenario C holds:
    from bet 0 in LOBBY, BET_ADD(10) gives bet 10 and a following
    BET_ADD(50) clamps to 50. -/
theorem C7_bet_bounds_lobby_only :
    (∀ s, Reachable s → 0 ≤ s.bet ∧ s.bet ≤ 50) ∧
    (∀ now g s a s' g2, Inv s → s.phase ≠ .LOBBY → a ≠ .RESET_RUN →
      a ≠ .NEXT_HAND → reducer now g s a = some (s', g2) →
      s'.bet = s.bet) ∧
    (∀ now g s, Inv s → s.phase = .LOBBY → s.bet = 0 →
      ∀ s1 g1, reducer now g s (.BET_ADD 10) = some (s1, g1) →
        s1.bet = 10 ∧ ∀ now2 gb s2 gc,
          reducer now2 gb s1 (.BET_ADD 50) = some (s2, gc) →
          s2.bet = 50) := by
  refine ⟨?_, ?_, ?_⟩
  · intro s h
    exact ⟨(reachable_inv h).betLo, (reachable_inv h).betHi⟩
  · intro now g s a s' g2 hinv hph ha1 ha2 hred
    cases a with
    | RESET_RUN => exact absurd rfl ha1
    | NEXT_HAND =>
      simp only [reducer, normalize_of_inv hinv] at hred
      by_cases hd : s.phase = .DONE
      · exact absurd rfl ha2
      · rw [if_pos hd] at hred
        have he := congrArg Prod.fst (Option.some.inj hred)
        subst he
        rfl
    | TOGGLE_LOG =>
      simp only [reducer, normalize_of_inv hinv] at hred
      have he := congrArg Prod.fst (Option.some.inj hred)
      subst he
      rfl
    | SHUFFLE =>
      simp only [reducer, normalize_of_inv hinv] at hred
      have he := congrArg Prod.fst (Option.some.inj hred)
      subst he
      rfl
    | RESET_BET =>
      simp only [reducer, normalize_of_inv hinv] at hred
      rw [if_pos hph] at hred
      have he := congrArg Prod.fst (Option.some.inj hred)
      subst he
      rfl
    | BET_ADD inc =>
      simp only [reducer, normalize_of_inv hinv] at hred
      rw [if_pos hph] at hred
      have he := congrArg Prod.fst (Option.some.inj hred)
      subst he
      rfl
    | BET_PLACE_CTA =>
      simp only [reducer, normalize_of_inv hinv] at hred
      rw [if_pos hph] at hred
      have he := congrArg Prod.fst (Option.some.inj hred)
      subst he
      rfl
    | START =>
      simp only [reducer, normalize_of_inv hinv] at hred
      rw [if_pos hph] at hred
      have he := congrArg Prod.fst (Option.some.inj hred)
      subst he
      rfl
    | STAND =>
      simp only [reducer, normalize_of_inv hinv] at hred
      by_cases hpp : s.phase = .PLAYER
      · rw [if_neg (not_not_intro hpp)] at hred
        have he := congrArg Prod.fst (Option.some.inj hred)
        subst he
        rfl
      · rw [if_pos hpp] at hred
        have he := congrArg Prod.fst (Option.some.inj hred)
        subst he
        rfl
    | DEALER_PLAY =>
      simp only [reducer, normalize_of_inv hinv] at hred
      by_cases hpp : s.phase = .DEALER
      · rw [if_neg (not_not_intro hpp)] at hred
        exact (dealerPlay_weak hred).2.2.1
      · rw [if_pos hpp] at hred
        have he := congrArg Prod.fst (Option.some.inj hred)
        subst he
        rfl
    | DRAW n =>
      simp only [reducer, normalize_of_inv hinv] at hred
      by_cases hpp : s.phase = .PLAYER
      · rw [if_neg (not_not_intro hpp)] at hred
        by_cases hib : s.playerInitialBust
        · rw [if_pos hib] at hred
          have he := congrArg Prod.fst (Option.some.inj hred)
          subst he
          rfl
        · rw [if_neg hib] at hred
          by_cases hbust : BUST < handTotal s.playerHand
          · rw [if_pos hbust] at hred
            have he := congrArg Prod.fst (Option.some.inj hred)
            subst he
            rfl
          · rw [if_neg hbust] at hred
            rcases htu : takeUnique g s.deck n
                (idsOf s.playerHand ++ idsOf s.dealerHand) with _ |
                ⟨taken, rest, gt⟩
            · rw [htu] at hred
              exact Option.noConfusion hred
            · rw [htu] at hred
              dsimp only at hred
              by_cases hb2 : BUST < handTotal (s.playerHand ++ taken)
              · rw [if_pos hb2] at hred
                have he := congrArg Prod.fst (Option.some.inj hred)
                subst he
                rfl
              · rw [if_neg hb2] at hred
                have he := congrArg Prod.fst (Option.some.inj hred)
                subst he
                rfl
      · rw [if_pos hpp] at hred
        have he := congrArg Prod.fst (Option.some.inj hred)
        subst he
        rfl
  · intro now g s hinv hph hb0 s1 g1 hred1
    have hred1' := hred1
    simp only [reducer, normalize_of_inv hinv] at hred1
    rw [if_neg (not_not_intro hph)] at hred1
    have hpair := Option.some.inj hred1
    injection hpair with hA hB
    have hbet1 : s1.bet = 10 := by
      rw [← hA]
      show clampBet (s.bet + 10) = 10
      rw [hb0]
      decide
    have hph1 : s1.phase = .LOBBY := by
      rw [← hA]
      exact hph
    refine ⟨hbet1, ?_⟩
    intro now2 gb s2 gc hred2
    have hinv1 : Inv s1 := inv_step hinv (.BET_ADD 10) hred1'
    simp only [reducer, normalize_of_inv hinv1] at hred2
    rw [if_neg (not_not_intro hph1)] at hred2
    have hpair2 := Option.some.inj hred2
    injection hpair2 with hA2 hB2
    rw [← hA2]
    show clampBet (s1.bet + 50) = 50
    rw [hbet1]
    decide

set_option maxRecDepth 1000000 in
/-- C7 witness: the reachable run realises Scenario C: bet 0, then 10, then
    clamped 50. -/
theorem C7_witness :
    (0 ≤ rs0.bet ∧ rs0.bet ≤ 50) ∧ rs1.bet = 10 ∧ rcBet50.bet = 50 := by
  have h3 := C7_bet_bounds_lobby_only.2.2 0 [] rs0 (inv_init oracleA) rfl
    (by decide) rs1 [] step_rs1
  exact ⟨C7_bet_bounds_lobby_only.1 rs0 reach_rs0, h3.1,
    h3.2 0 [] rcBet50 [] (by rfl)⟩

/-- C10: every reachable state's bankroll is nonnegative, and START on a
    LOBBY state whose bet exceeds the bankroll is rejected with the core
    state unchanged. -/
theorem C10_bankroll_nonneg :
    (∀ s, Reachable s → 0 ≤ s.bankroll) ∧
    (∀ now g s s' g2, Inv s → s.phase = .LOBBY → s.bankroll < s.bet →
      reducer now g s .START = some (s', g2) → sameCore s' s) := by
  constructor
  · intro s h
    exact (reachable_inv h).bank
  · intro now g s s' g2 hinv hph hbb hred
    simp only [reducer, normalize_of_inv hinv] at hred
    rw [if_neg (not_not_intro hph)] at hred
    by_cases hb0 : s.bet ≤ 0
    · rw [if_pos hb0] at hred
      have he := congrArg Prod.fst (Option.some.inj hred)
      subst he
      exact ⟨rfl, rfl, rfl, rfl, rfl, rfl, rfl, rfl, rfl⟩
    · rw [if_neg hb0, if_pos hbb] at hred
      have he := congrArg Prod.fst (Option.some.inj hred)
      subst he
      exact ⟨rfl, rfl, rfl, rfl, rfl, rfl, rfl, rfl, rfl⟩

set_option maxRecDepth 1000000 in
/-- C10 witness: the initial bankroll 10000 is nonnegative, and START on
    `stPoor` (bankroll 10, bet 20) is rejected without dealing. -/
theorem C10_witness :
    0 ≤ rs0.bankroll ∧
    (stPoor.phase = .LOBBY ∧ stPoor.bankroll < stPoor.bet) ∧
    sameCore stPoorS stPoor :=
  ⟨C10_bankroll_nonneg.1 rs0 reach_rs0, ⟨rfl, by decide⟩,
    C10_bankroll_nonneg.2 0 [] stPoor stPoorS []
      ⟨by decide, by decide, by decide, by decide, by decide, by decide,
        by decide⟩ rfl (by decide) (by rfl)⟩


end Protocol77
